import Mathlib

/-!
Verification development for the biznest-dataset annotation utilities
(src/utils/annotate.py, src/utils/retag.py, src/utils/extract_amenities.py).

The Python sources are shallowly embedded as executable Lean definitions:
dictionaries become insertion-ordered association lists, console I/O becomes
an explicit input script (a list of answers) plus an event trace recording
every user-facing prompt and every write to disk, and each Python function
becomes a Lean function of the same name.  A run that would block forever
waiting for console input (script exhausted) is modelled as none.
-/

set_option autoImplicit false
set_option maxRecDepth 16384

namespace Biznest

/-- One geographic feature.  The Python code reads a feature's properties
dict with feature.get("properties") or empty, and treats name and amenity
as optional string entries of that dict; the geometry is only displayed,
never inspected, so it is not modelled.  The properties object is modelled
as present (the external-interface contract of the sources: every feature
record carries a properties object). -/
structure Feature where
  name : Option String
  amenity : Option String
deriving DecidableEq, Repr

instance : Inhabited Feature := ⟨⟨none, none⟩⟩

/-- Python truthiness of an optional string value: None and the empty
string are falsy. -/
def truthy : Option String → Bool
  | none => false
  | some s => !(s == "")

/-- A feature counts as resolved when its amenity is present and non-empty,
mirroring the checks (f.get("properties") or ...).get("amenity") used as a
boolean in annotate.py. -/
def Feature.resolvedB (f : Feature) : Bool := truthy f.amenity

/-- ASCII lower-casing of one character, the model of Python str.lower on
the ASCII inputs this system manipulates. -/
def lowerChar (c : Char) : Char :=
  if 65 ≤ c.toNat ∧ c.toNat ≤ 90 then Char.ofNat (c.toNat + 32) else c

/-- Model of Python str.lower. -/
def strLower (s : String) : String := ⟨s.data.map lowerChar⟩

/-- Model of Python str.isdigit on ASCII strings: non-empty and all
characters are decimal digits. -/
def isDigitChar (c : Char) : Bool := 48 ≤ c.toNat && c.toNat ≤ 57

/-- Model of Python str.isdigit (ASCII fragment). -/
def isDigits (s : String) : Bool := !(s == "") && s.data.all isDigitChar

/-- Model of Python int() on a digit string. -/
def strToNat (s : String) : Nat :=
  s.data.foldl (fun n c => n * 10 + (c.toNat - 48)) 0

/-- Is this character stripped by Python str.strip()? -/
def isSpaceChar (c : Char) : Bool :=
  c.toNat == 32 || c.toNat == 9 || c.toNat == 10 ||
  c.toNat == 13 || c.toNat == 11 || c.toNat == 12

/-- Model of Python str.strip(): drop whitespace from both ends. -/
def strTrim (s : String) : String :=
  ⟨((s.data.dropWhile isSpaceChar).reverse.dropWhile isSpaceChar).reverse⟩

/-- Lexicographic code-point comparison of character lists, the model of
Python string comparison. -/
def strLtL : List Char → List Char → Bool
  | [], [] => false
  | [], _ :: _ => true
  | _ :: _, [] => false
  | c :: cs, d :: ds =>
    if c.toNat < d.toNat then true
    else if d.toNat < c.toNat then false
    else strLtL cs ds

/-- Model of Python s < t on strings. -/
def strLt (s t : String) : Bool := strLtL s.data t.data

/-- The trimmed name used as cache key throughout annotate.py:
str(props.get("name") or "").strip(). -/
def trimName (f : Feature) : String := strTrim (f.name.getD "")

/-- The display name of annotate.py line 147 / retag.py line 47:
the trimmed name, or "Unnamed" when that is empty.  In retag.py this
placeholder is also used as the cache key. -/
def displayName (f : Feature) : String :=
  let n := trimName f
  if n == "" then "Unnamed" else n

/-- The amenity cache: a JSON object, i.e. an insertion-ordered mapping
from name to amenity string. -/
abbrev Cache := List (String × String)

/-- Dict lookup: value of the unique entry with the given key. -/
def cacheGet (c : Cache) (k : String) : Option String :=
  (c.find? (fun p => p.1 == k)).map (fun p => p.2)

/-- Python "k in cache". -/
def cacheMem (c : Cache) (k : String) : Bool := (cacheGet c k).isSome

/-- Dict assignment cache[k] = v: update the entry in place if the key
exists, else append a new entry. -/
def cachePut : Cache → String → String → Cache
  | [], k, v => [(k, v)]
  | p :: rest, k, v =>
    if p.1 == k then (p.1, v) :: rest else p :: cachePut rest k v

/-- All values stored in a cache are non-empty: the well-formedness
invariant of the spec's AnnotationCache (its put operation requires a
non-empty amenity, so any cache produced by this system satisfies it). -/
def cacheWF (c : Cache) : Prop := ∀ p ∈ c, p.2 ≠ ""

/-! ### Model of difflib, as used by filter_similar_amenities

difflib.SequenceMatcher with no junk: find_longest_match returns the
longest matching block, with smallest start in a and then smallest start
in b as tie-break; ratio is 2*M/T where M is the total size of all
matching blocks and T the total length.  get_close_matches(word, pool,
n=3, cutoff) keeps the candidates with ratio at least cutoff and returns
the 3 largest under the ordering of (ratio, candidate) pairs.  Ratios are
represented as exact fractions (numerator, denominator) and compared by
cross-multiplication. -/

/-- Length of the common run of the two lists starting at their heads. -/
def commonRun : List Char → List Char → Nat
  | x :: xs, y :: ys => if x = y then commonRun xs ys + 1 else 0
  | _, _ => 0

/-- Length of the matching run of a and b starting at positions i and j,
confined to the windows [i, ahi) and [j, bhi). -/
def runLen (a b : List Char) (i j ahi bhi : Nat) : Nat :=
  commonRun ((a.drop i).take (ahi - i)) ((b.drop j).take (bhi - j))

/-- SequenceMatcher.find_longest_match on the windows [alo, ahi) x
[blo, bhi): the triple (i, j, k) with maximal k, smallest i, then
smallest j (the tie-break realised by difflib's strict-improvement scan
in increasing i, then increasing j; junk handling is vacuous here). -/
def findLongestMatch (a b : List Char) (alo ahi blo bhi : Nat) : Nat × Nat × Nat :=
  ((List.range (ahi - alo)).map (fun d => alo + d)).foldl
    (fun best i =>
      ((List.range (bhi - blo)).map (fun d => blo + d)).foldl
        (fun best j =>
          let k := runLen a b i j ahi bhi
          if best.2.2 < k then (i, j, k) else best)
        best)
    (alo, blo, 0)

/-- Total size of the matching blocks found by
SequenceMatcher.get_matching_blocks, computed by the same recursive
decomposition around each longest match.  The fuel argument dominates the
recursion depth; matchSum supplies enough. -/
def matchSumAux (a b : List Char) : Nat → Nat → Nat → Nat → Nat → Nat
  | 0, _, _, _, _ => 0
  | fuel + 1, alo, ahi, blo, bhi =>
    let m := findLongestMatch a b alo ahi blo bhi
    let i := m.1
    let j := m.2.1
    let k := m.2.2
    if k == 0 then 0
    else
      k + (if alo < i && blo < j then matchSumAux a b fuel alo i blo j else 0)
        + (if i + k < ahi && j + k < bhi then matchSumAux a b fuel (i + k) ahi (j + k) bhi else 0)

/-- Sum of matching-block sizes for the two full strings. -/
def matchSum (a b : List Char) : Nat :=
  matchSumAux a b (a.length + b.length + 1) 0 a.length 0 b.length

/-- SequenceMatcher.ratio of candidate x against word, as the exact
fraction (2*M, T); both-empty gives ratio 1. -/
def scoreOf (x word : String) : Nat × Nat :=
  let t := x.length + word.length
  if t == 0 then (1, 1) else (2 * matchSum x.data word.data, t)

/-- Strict comparison of two ratio fractions (denominators positive). -/
def ratLtB (p q : Nat × Nat) : Bool := p.1 * q.2 < q.1 * p.2

/-- Equality of two ratio fractions. -/
def ratEqB (p q : Nat × Nat) : Bool := p.1 * q.2 == q.1 * p.2

/-- Python tuple comparison (ratio, candidate) > (ratio, candidate), the
order used by heapq.nlargest inside get_close_matches. -/
def scoreGt (p q : (Nat × Nat) × String) : Bool :=
  ratLtB q.1 p.1 || (ratEqB p.1 q.1 && strLt q.2 p.2)

/-- Insert into a descending-sorted list of scored candidates. -/
def insertDesc (p : (Nat × Nat) × String) :
    List ((Nat × Nat) × String) → List ((Nat × Nat) × String)
  | [] => [p]
  | q :: rest => if scoreGt p q then p :: q :: rest else q :: insertDesc p rest

/-- Sort scored candidates in descending (ratio, candidate) order. -/
def sortDesc (l : List ((Nat × Nat) × String)) : List ((Nat × Nat) × String) :=
  l.foldr insertDesc []

/-- difflib.get_close_matches(word, poss, n=3, cutoff=0.85): candidates
with ratio at least 17/20, best three first. -/
def getCloseMatches (word : String) (poss : List String) : List String :=
  let scored := poss.filterMap (fun x =>
    let sc := scoreOf x word
    if 17 * sc.2 ≤ 20 * sc.1 then some (sc, x) else none)
  ((sortDesc scored).take 3).map (fun p => p.2)

/-! ### filter_similar_amenities (annotate.py lines 24-45) -/

/-- One step of building the normalized dict of annotate.py lines 26-30:
key is the trimmed, lower-cased string, value the first-encountered
original. -/
def normStep (acc : List (String × String)) (a : String) : List (String × String) :=
  let key := strLower (strTrim a)
  if acc.any (fun p => p.1 == key) then acc else acc ++ [(key, a)]

/-- The normalized dict of annotate.py lines 26-30, insertion ordered. -/
def normalize (amenities : List String) : List (String × String) :=
  amenities.foldl normStep []

/-- The candidate pool normalized.values(). -/
def normalizedValues (amenities : List String) : List String :=
  (normalize amenities).map (fun p => p.2)

/-- The greedy clustering loop of annotate.py lines 32-43, additionally
recording each cluster's match list (the set printed by the grouping
diagnostic).  Returns (cleaned, clusters) in formation order. -/
def clusterLoop (pool : List String) :
    List String → List String → List String × List (List String)
  | [], _ => ([], [])
  | item :: rest, seen =>
    if seen.contains item then clusterLoop pool rest seen
    else
      let ms := getCloseMatches item pool
      let out := clusterLoop pool rest (seen ++ ms)
      (ms.headD "" :: out.1, ms :: out.2)

/-- Insert into an ascending-sorted list of strings. -/
def insertAsc (s : String) : List String → List String
  | [] => [s]
  | t :: rest => if strLt s t then s :: t :: rest else t :: insertAsc s rest

/-- Python sorted() on a list of distinct strings. -/
def sortStr (l : List String) : List String := l.foldr insertAsc []

/-- filter_similar_amenities together with its cluster trace. -/
def filter_similar_full (amenities : List String) :
    List String × List (List String) :=
  clusterLoop (normalizedValues amenities) (normalizedValues amenities) []

/-- annotate.py filter_similar_amenities: the sorted cleaned list. -/
def filter_similar_amenities (amenities : List String) : List String :=
  sortStr (filter_similar_full amenities).1

/-! ### Observable events of a run

Each user-facing prompt and each write to disk is recorded in order.
A prompt event stands for one prompting session: the banner displayed for
one chain name or one feature; rejected answers re-prompt within the same
session without a new banner, exactly as the Python while-loops do. -/

/-- Trace events: prompts and persistence actions. -/
inductive Ev where
  | chainPrompt (name : String) (count : Nat)
  | annPrompt (idx : Nat) (name : String)
  | retagPrompt (idx : Nat) (name : String)
  | autoRetag (idx : Nat) (name : String) (v : String)
  | report (total : Nat) (filled : Nat) (fromCache : Nat) (toFill : Nat)
  | saveCache (c : Cache)
  | saveResume (fs : List Feature)
deriving DecidableEq, Repr

/-- Is this event a user-facing prompt? -/
def isPromptEv : Ev → Bool
  | .chainPrompt _ _ => true
  | .annPrompt _ _ => true
  | .retagPrompt _ _ => true
  | _ => false

/-- Is this event a cache write? -/
def isSaveCacheEv : Ev → Bool
  | .saveCache _ => true
  | _ => false

/-- Is this event a dataset (resume-file) write? -/
def isSaveResumeEv : Ev → Bool
  | .saveResume _ => true
  | _ => false

/-- Scans a trace checking that after every prompt, a resume write and a
cache write both occur before the next prompt.  The two flags record which
writes are still owed since the last prompt. -/
def scanFlush : Bool → Bool → List Ev → Bool
  | _, _, [] => true
  | needR, needC, e :: rest =>
    if isPromptEv e then !needR && !needC && scanFlush true true rest
    else if isSaveResumeEv e then scanFlush false needC rest
    else if isSaveCacheEv e then scanFlush needR false rest
    else scanFlush needR needC rest

/-- Scans a trace checking that after every prompt, a cache write occurs
before the next prompt (the flush discipline relevant to the chain
detector, which owns no resume file). -/
def scanCacheFlush : Bool → List Ev → Bool
  | _, [] => true
  | needC, e :: rest =>
    if isPromptEv e then !needC && scanCacheFlush true rest
    else if isSaveCacheEv e then scanCacheFlush false rest
    else scanCacheFlush needC rest

/-! ### ChainDetector (annotate.py lines 75-106) -/

/-- One counting step of build_name_frequency:
freq[name] = freq.get(name, 0) + 1, updating in place or appending. -/
def freqBump : List (String × Nat) → String → List (String × Nat)
  | [], n => [(n, 1)]
  | p :: rest, n =>
    if p.1 == n then (p.1, p.2 + 1) :: rest else p :: freqBump rest n

/-- annotate.py build_name_frequency: occurrence count per trimmed name,
skipping features whose raw name is missing or empty and names that trim
to empty. -/
def build_name_frequency (fs : List Feature) : List (String × Nat) :=
  fs.foldl
    (fun freq f =>
      match f.name with
      | none => freq
      | some raw =>
        if raw == "" then freq
        else
          let n := strTrim raw
          if n == "" then freq else freqBump freq n)
    []

/-- The while-loop of prefill_chains (and the empty-answer re-prompt of
the interactive loops): consume script entries, stripping each, until a
non-empty one is found. -/
def firstNonempty : List String → Option (String × List String)
  | [] => none
  | s :: rest =>
    let t := strTrim s
    if t == "" then firstNonempty rest else some (t, rest)

/-- The loop of prefill_chains over the name-frequency index: prompt for
each name with count > 1 not already cached, and store the required
non-empty answer. -/
def prefillLoop (cache : Cache) :
    List (String × Nat) → List String → Option (Cache × List String × List Ev)
  | [], script => some (cache, script, [])
  | (name, count) :: rest, script =>
    if decide (1 < count) && !cacheMem cache name then
      match firstNonempty script with
      | none => none
      | some (ans, script') =>
        (prefillLoop (cachePut cache name ans) rest script').map
          (fun r => (r.1, r.2.1, Ev.chainPrompt name count :: r.2.2))
    else prefillLoop cache rest script

/-- annotate.py prefill_chains: the prompting loop followed by the single
save_cache call at line 106. -/
def prefill_chains (cache : Cache) (freq : List (String × Nat))
    (script : List String) : Option (Cache × List String × List Ev) :=
  (prefillLoop cache freq script).map
    (fun r => (r.1, r.2.1, r.2.2 ++ [Ev.saveCache r.1]))

/-! ### AnnotationEngine (annotate.py lines 109-186) -/

/-- Answer to one interactive prompting session. -/
inductive Ans where
  | quit
  | pick (v : String)
deriving DecidableEq, Repr

/-- The input-validation while-loop of annotate.py lines 161-180: each
script entry is stripped; "q"/"Q" quits; an all-digit answer is a 1-based
menu index, rejected and re-asked when out of range; other non-empty text
is taken verbatim; blank input is rejected and re-asked. -/
def askAmenity (vocab : List String) : List String → Option (Ans × List String)
  | [] => none
  | s :: rest =>
    let t := strTrim s
    if strLower t == "q" then some (.quit, rest)
    else if isDigits t then
      let n := strToNat t
      if n == 0 then askAmenity vocab rest
      else
        match vocab[n - 1]? with
        | some v => some (.pick v, rest)
        | none => askAmenity vocab rest
    else if t == "" then askAmenity vocab rest
    else some (.pick t, rest)

/-- props["amenity"] = v on the feature at position i of the dataset. -/
def setAmenity : List Feature → Nat → String → List Feature
  | [], _, _ => []
  | f :: rest, 0, v => { f with amenity := some v } :: rest
  | f :: rest, i + 1, v => f :: setAmenity rest i v

/-- The auto-fill pass of annotate.py lines 120-129: fill every
unresolved feature whose trimmed name is a cache key, counting the fills. -/
def autoFill (cache : Cache) : List Feature → List Feature × Nat
  | [] => ([], 0)
  | f :: rest =>
    let out := autoFill cache rest
    if f.resolvedB then (f :: out.1, out.2)
    else
      match cacheGet cache (trimName f) with
      | some v => ({ f with amenity := some v } :: out.1, out.2 + 1)
      | none => (f :: out.1, out.2)

/-- Positions of the unresolved features (the unfinished list of
annotate.py line 135, kept as indices into the full dataset because the
Python list aliases the feature dicts of data). -/
def unfinIdxFrom : Nat → List Feature → List Nat
  | _, [] => []
  | i, f :: rest =>
    if f.resolvedB then unfinIdxFrom (i + 1) rest
    else i :: unfinIdxFrom (i + 1) rest

/-- Positions of the unresolved features of a dataset. -/
def unfinIdx (fs : List Feature) : List Nat := unfinIdxFrom 0 fs

/-- The interactive loop of annotate.py lines 144-186 over the pending
positions: prompt, validate the answer, then either quit (write the
dataset and the cache and stop) or set the amenity and write the dataset
and the cache before the next prompt.  Returns the final dataset, the
trace, and whether the loop was quit.  The cache is never mutated here;
save_cache persists it unchanged. -/
def interactLoop (vocab : List String) (cache : Cache) :
    List Feature → List Nat → List String → Option (List Feature × List Ev × Bool)
  | fs, [], _ => some (fs, [], false)
  | fs, i :: rest, script =>
    let f := (fs[i]?).getD default
    match askAmenity vocab script with
    | none => none
    | some (.quit, _) =>
      some (fs, [Ev.annPrompt i (displayName f), Ev.saveResume fs, Ev.saveCache cache], true)
    | some (.pick v, script') =>
      let fs' := setAmenity fs i v
      (interactLoop vocab cache fs' rest script').map
        (fun r =>
          (r.1,
           Ev.annPrompt i (displayName f) :: Ev.saveResume fs' :: Ev.saveCache cache :: r.2.1,
           r.2.2))

/-- The load environment of one dataset: its source path, whether the
derived resume (work) file exists, and the features stored in each file. -/
structure LoadEnv where
  sourcePath : String
  resumeExists : Bool
  sourceFeatures : List Feature
  resumeFeatures : List Feature

/-- annotate.py line 111: the resume path derived from the source path. -/
def workFile (p : String) : String :=
  p.replace "_no_amenity.geojson" "_annotated.geojson"

/-- annotate.py line 112: load the work file when it exists, else the
source. -/
def loadPath (env : LoadEnv) : String :=
  if env.resumeExists then workFile env.sourcePath else env.sourcePath

/-- The features parsed from the effective load path. -/
def loadedFeatures (env : LoadEnv) : List Feature :=
  if env.resumeExists then env.resumeFeatures else env.sourceFeatures

/-- annotate.py process_geojson: load (preferring the resume file),
auto-fill from the cache, report the counts of line 138, then run the
interactive loop over the unfinished features. -/
def process_geojson (env : LoadEnv) (vocab : List String) (cache : Cache)
    (script : List String) : Option (List Feature × List Ev × Bool) :=
  let fs0 := loadedFeatures env
  let af := autoFill cache fs0
  let fs1 := af.1
  let filled := fs1.countP Feature.resolvedB
  let pending := unfinIdx fs1
  (interactLoop vocab cache fs1 pending script).map
    (fun r =>
      (r.1, Ev.report fs1.length filled af.2 pending.length :: r.2.1, r.2.2))

/-! ### Retagger (retag.py lines 23-81) -/

/-- retag.py lines 32-36: a feature is a retag target when its amenity is
truthy and lower-cases to "retail_store" or "retail store". -/
def isRetailTarget (f : Feature) : Bool :=
  match f.amenity with
  | none => false
  | some a =>
    !(a == "") && (strLower a == "retail_store" || strLower a == "retail store")

/-- Positions of the retag targets. -/
def targetIdxFrom : Nat → List Feature → List Nat
  | _, [] => []
  | i, f :: rest =>
    if isRetailTarget f then i :: targetIdxFrom (i + 1) rest
    else targetIdxFrom (i + 1) rest

/-- The retag answer loop of retag.py lines 60-75: "q"/"Q" quits, other
non-empty text is the new amenity, blank input re-asks.  There is no
numbered menu. -/
def askRetag : List String → Option (Ans × List String)
  | [] => none
  | s :: rest =>
    let t := strTrim s
    if strLower t == "q" then some (.quit, rest)
    else if t == "" then askRetag rest
    else some (.pick t, rest)

/-- The loop of process_retag over the target positions: a cache hit
retags automatically with no prompt and no write; otherwise prompt, and
on quit write the file and the cache and stop, on an answer set the
amenity, store it in the retag cache, and write both files.  Nothing is
written after the loop ends normally. -/
def retagLoop :
    List Feature → List Nat → Cache → List String → Option (List Feature × Cache × List Ev)
  | fs, [], cache, _ => some (fs, cache, [])
  | fs, i :: rest, cache, script =>
    let f := (fs[i]?).getD default
    let name := displayName f
    match cacheGet cache name with
    | some v =>
      (retagLoop (setAmenity fs i v) rest cache script).map
        (fun r => (r.1, r.2.1, Ev.autoRetag i name v :: r.2.2))
    | none =>
      match askRetag script with
      | none => none
      | some (.quit, _) =>
        some (fs, cache, [Ev.retagPrompt i name, Ev.saveResume fs, Ev.saveCache cache])
      | some (.pick v, script') =>
        let fs' := setAmenity fs i v
        let cache' := cachePut cache name v
        (retagLoop fs' rest cache' script').map
          (fun r =>
            (r.1, r.2.1,
             Ev.retagPrompt i name :: Ev.saveResume fs' :: Ev.saveCache cache' :: r.2.2))

/-- retag.py process_retag: collect the targets; when there are none,
return without writing; otherwise run the retag loop. -/
def process_retag (fs : List Feature) (cache : Cache) (script : List String) :
    Option (List Feature × Cache × List Ev) :=
  let targets := targetIdxFrom 0 fs
  if targets.isEmpty then some (fs, cache, [])
  else retagLoop fs targets cache script

/-! ### File partitioner (extract_amenities.py lines 5-23) -/

/-- One iteration of the partitioning loop of extract_amenities.py: a
feature whose amenity is exactly None goes to the no-amenity side; any
other feature (empty-string amenity included) goes to the with-amenity
side and its amenity joins the set. -/
def extractStep (acc : List String × List Feature × List Feature) (f : Feature) :
    List String × List Feature × List Feature :=
  match f.amenity with
  | none => (acc.1, acc.2.1, acc.2.2 ++ [f])
  | some a =>
    ((if acc.1.contains a then acc.1 else acc.1 ++ [a]),
     acc.2.1 ++ [f], acc.2.2)

/-- extract_amenities.py process_geojson: split features by whether the
amenity value is exactly None, collecting the set of amenity strings seen
on the labeled side. -/
def extract_process_geojson (fs : List Feature) :
    List String × List Feature × List Feature :=
  fs.foldl extractStep ([], [], [])

/-! ## Helper lemmas -/

theorem cacheGet_nil (k : String) : cacheGet [] k = none := rfl

theorem cacheGet_cons (p : String × String) (c : Cache) (k : String) :
    cacheGet (p :: c) k = if p.1 == k then some p.2 else cacheGet c k := by
  cases hpk : (p.1 == k) <;> simp [cacheGet, List.find?, hpk]

theorem cacheGet_put_self (c : Cache) (k v : String) :
    cacheGet (cachePut c k v) k = some v := by
  induction c with
  | nil => simp [cachePut, cacheGet_cons]
  | cons p rest ih =>
    by_cases h : p.1 == k <;> simp_all [cachePut, cacheGet_cons]

theorem cacheGet_put_ne (c : Cache) (k v k' : String) (h : k' ≠ k) :
    cacheGet (cachePut c k v) k' = cacheGet c k' := by
  induction c with
  | nil =>
    simp only [cachePut, cacheGet_cons, cacheGet_nil]
    simp [Ne.symm h]
  | cons p rest ih =>
    by_cases hp : p.1 == k
    · have hk : p.1 = k := by simpa using hp
      simp [cachePut, hp, cacheGet_cons, hk, Ne.symm h]
    · simp [cachePut, hp, cacheGet_cons, ih]

theorem cacheMem_put (c : Cache) (k v k' : String) :
    cacheMem (cachePut c k v) k' = (cacheMem c k' || (k' == k)) := by
  by_cases h : k' = k
  · subst h
    simp [cacheMem, cacheGet_put_self]
  · simp [cacheMem, cacheGet_put_ne c k v k' h, h]

theorem cacheWF_get {c : Cache} (hwf : cacheWF c) {k v : String}
    (h : cacheGet c k = some v) : v ≠ "" := by
  induction c with
  | nil => simp [cacheGet_nil] at h
  | cons p rest ih =>
    rw [cacheGet_cons] at h
    by_cases hp : p.1 == k
    · simp [hp] at h
      exact h ▸ hwf p (by simp)
    · simp [hp] at h
      exact ih (fun q hq => hwf q (by simp [hq])) h

theorem cacheWF_put {c : Cache} (hwf : cacheWF c) {k v : String} (hv : v ≠ "") :
    cacheWF (cachePut c k v) := by
  induction c with
  | nil =>
    intro q hq
    simp [cachePut] at hq
    simp [hq, hv]
  | cons p rest ih =>
    by_cases hp : p.1 == k
    · intro q hq
      simp [cachePut, hp] at hq
      rcases hq with hq | hq
      · simp [hq, hv]
      · exact hwf q (by simp [hq])
    · intro q hq
      simp [cachePut, hp] at hq
      rcases hq with hq | hq
      · exact hwf q (by simp [hq])
      · exact ih (fun r hr => hwf r (by simp [hr])) q hq

theorem setAmenity_length (fs : List Feature) (i : Nat) (v : String) :
    (setAmenity fs i v).length = fs.length := by
  induction fs generalizing i with
  | nil => rfl
  | cons f rest ih =>
    cases i with
    | zero => simp [setAmenity]
    | succ j => simp [setAmenity, ih]

theorem setAmenity_get_ne (fs : List Feature) (i j : Nat) (v : String) (h : j ≠ i) :
    (setAmenity fs i v)[j]? = fs[j]? := by
  induction fs generalizing i j with
  | nil => rfl
  | cons f rest ih =>
    cases i with
    | zero =>
      cases j with
      | zero => exact absurd rfl h
      | succ j' => simp [setAmenity]
    | succ i' =>
      cases j with
      | zero => simp [setAmenity]
      | succ j' => simpa [setAmenity] using ih i' j' (by omega)

theorem setAmenity_get_eq (fs : List Feature) (i : Nat) (v : String) :
    (setAmenity fs i v)[i]? = (fs[i]?).map (fun f => { f with amenity := some v }) := by
  induction fs generalizing i with
  | nil => rfl
  | cons f rest ih =>
    cases i with
    | zero => simp [setAmenity]
    | succ i' => simpa [setAmenity] using ih i'

theorem resolvedB_set (f : Feature) (v : String) :
    ({ f with amenity := some v } : Feature).resolvedB = !(v == "") := rfl

theorem countP_not_add (l : List Feature) (p : Feature → Bool) :
    l.countP p + l.countP (fun a => !(p a)) = l.length := by
  induction l with
  | nil => rfl
  | cons f rest ih =>
    by_cases h : p f <;>
      simp [List.countP_cons, h, ← ih] <;> omega

/-! ## Claim C10: the file partitioner classifies by amenity = None -/

theorem extract_no_acc (fs : List Feature) (acc : List String × List Feature × List Feature) :
    (fs.foldl extractStep acc).2.2 = acc.2.2 ++ fs.filter (fun f => f.amenity.isNone) := by
  induction fs generalizing acc with
  | nil => simp
  | cons f rest ih =>
    cases hf : f.amenity <;>
      simp [extractStep, hf, ih, List.filter_cons]

theorem extract_with_acc (fs : List Feature) (acc : List String × List Feature × List Feature) :
    (fs.foldl extractStep acc).2.1 = acc.2.1 ++ fs.filter (fun f => !f.amenity.isNone) := by
  induction fs generalizing acc with
  | nil => simp
  | cons f rest ih =>
    cases hf : f.amenity <;>
      simp [extractStep, hf, ih, List.filter_cons]

theorem mem_insertSet (l : List String) (b a : String) :
    a ∈ (if l.contains b then l else l ++ [b]) ↔ a ∈ l ∨ a = b := by
  by_cases hc : l.contains b
  · rw [if_pos hc]
    constructor
    · exact Or.inl
    · rintro (h | rfl)
      · exact h
      · simpa using hc
  · rw [if_neg hc]
    simp

theorem extract_vocab_acc (fs : List Feature) (acc : List String × List Feature × List Feature)
    (a : String) :
    a ∈ (fs.foldl extractStep acc).1 ↔ a ∈ acc.1 ∨ ∃ f ∈ fs, f.amenity = some a := by
  induction fs generalizing acc with
  | nil => simp
  | cons f rest ih =>
    cases hf : f.amenity with
    | none =>
      simp only [List.foldl_cons, extractStep, hf, ih, List.mem_cons]
      constructor
      · rintro (h | ⟨g, hg, ha⟩)
        · exact Or.inl h
        · exact Or.inr ⟨g, Or.inr hg, ha⟩
      · rintro (h | ⟨g, (rfl | hg), ha⟩)
        · exact Or.inl h
        · rw [hf] at ha
          cases ha
        · exact Or.inr ⟨g, hg, ha⟩
    | some b =>
      simp only [List.foldl_cons, extractStep, hf, ih, mem_insertSet, List.mem_cons]
      constructor
      · rintro ((h | rfl) | ⟨g, hg, ha⟩)
        · exact Or.inl h
        · exact Or.inr ⟨f, Or.inl rfl, hf⟩
        · exact Or.inr ⟨g, Or.inr hg, ha⟩
      · rintro (h | ⟨g, (rfl | hg), ha⟩)
        · exact Or.inl (Or.inl h)
        · rw [hf] at ha
          injection ha with hba
          exact Or.inl (Or.inr hba.symm)
        · exact Or.inr ⟨g, hg, ha⟩

/-- Claim C10: the partitioner classifies each feature solely by whether
its amenity is exactly None: the no-amenity output is exactly the
features with amenity None, the with-amenity output is exactly the rest,
the vocabulary set holds exactly the amenity strings of the labeled side,
and a feature with an empty-string amenity lands on the labeled side
(its empty string entering the vocabulary) and never in the no-amenity
output, even though the annotation data model counts an empty amenity as
unresolved. -/
theorem extract_partitions_by_none (fs : List Feature) :
    (extract_process_geojson fs).2.2 = fs.filter (fun f => f.amenity.isNone)
    ∧ (extract_process_geojson fs).2.1 = fs.filter (fun f => !f.amenity.isNone)
    ∧ (∀ a : String, a ∈ (extract_process_geojson fs).1 ↔ ∃ f ∈ fs, f.amenity = some a)
    ∧ (∀ f ∈ fs, f.amenity = some "" →
        f ∈ (extract_process_geojson fs).2.1
        ∧ f ∉ (extract_process_geojson fs).2.2
        ∧ "" ∈ (extract_process_geojson fs).1)
    ∧ (∀ n : Option String, Feature.resolvedB ⟨n, some ""⟩ = false) := by
  refine ⟨?_, ?_, ?_, ?_, ?_⟩
  · simpa using extract_no_acc fs ([], [], [])
  · simpa using extract_with_acc fs ([], [], [])
  · intro a
    simpa using extract_vocab_acc fs ([], [], []) a
  · intro f hf he
    refine ⟨?_, ?_, ?_⟩
    · have h := extract_with_acc fs ([], [], [])
      simp [extract_process_geojson] at h ⊢
      rw [h]
      exact List.mem_filter.2 ⟨hf, by simp [he]⟩
    · have h := extract_no_acc fs ([], [], [])
      simp [extract_process_geojson] at h ⊢
      rw [h]
      intro hmem
      have := (List.mem_filter.1 hmem).2
      simp [he] at this
    · exact ((extract_vocab_acc fs ([], [], []) "").2 (Or.inr ⟨f, hf, he⟩))
  · intro n
    rfl

/-- Witness for C10 at a concrete dataset containing an empty-string
amenity. -/
theorem extract_partitions_by_none_checked :
    (⟨some "A", some ""⟩ : Feature) ∈ (extract_process_geojson [⟨some "A", some ""⟩, ⟨some "B", none⟩]).2.1
    ∧ (⟨some "A", some ""⟩ : Feature) ∉ (extract_process_geojson [⟨some "A", some ""⟩, ⟨some "B", none⟩]).2.2
    ∧ "" ∈ (extract_process_geojson [⟨some "A", some ""⟩, ⟨some "B", none⟩]).1 :=
  (extract_partitions_by_none [⟨some "A", some ""⟩, ⟨some "B", none⟩]).2.2.2.1
    ⟨some "A", some ""⟩ (by simp) rfl

/-! ## Interactive answer parsing: claims C9 and C7 -/

theorem isDigitChar_lowerChar {c : Char} (h : isDigitChar c = true) : lowerChar c = c := by
  have hno : ¬(65 ≤ c.toNat ∧ c.toNat ≤ 90) := by
    simp only [isDigitChar, Bool.and_eq_true, decide_eq_true_eq] at h
    omega
  simp [lowerChar, hno]

theorem lower_map_digits (l : List Char) (h : l.all isDigitChar = true) :
    l.map lowerChar = l := by
  induction l with
  | nil => rfl
  | cons c cs ih =>
    simp only [List.all_cons, Bool.and_eq_true] at h
    simp [isDigitChar_lowerChar h.1, ih h.2]

theorem digits_strLower {t : String} (h : isDigits t = true) : strLower t = t := by
  cases t with
  | mk l =>
    simp only [isDigits, Bool.and_eq_true] at h
    simp [strLower, lower_map_digits l h.2]

theorem digits_not_q {t : String} (h : isDigits t = true) : strLower t ≠ "q" := by
  intro hq
  rw [digits_strLower h] at hq
  subst hq
  simp [isDigits, isDigitChar] at h

theorem mem_of_getElem?_string {l : List String} {n : Nat} {v : String}
    (h : l[n]? = some v) : v ∈ l := by
  induction l generalizing n with
  | nil => simp at h
  | cons a rest ih =>
    cases n with
    | zero =>
      simp at h
      simp [h]
    | succ m =>
      simp at h
      exact List.mem_cons_of_mem a (ih h)

theorem askAmenity_pick_spec (vocab : List String) (script : List String) :
    ∀ v rest', askAmenity vocab script = some (.pick v, rest') →
      v ∈ vocab ∨ (isDigits v = false ∧ strLower v ≠ "q" ∧ v ≠ "") := by
  induction script with
  | nil =>
    intro v rest' h
    simp [askAmenity] at h
  | cons s rest ih =>
    intro v rest' h
    by_cases hq : (strLower (strTrim s) == "q") = true
    · simp [askAmenity, hq] at h
    · by_cases hd : isDigits (strTrim s) = true
      · by_cases hz : strToNat (strTrim s) = 0
        · simp [askAmenity, hq, hd, hz] at h
          exact ih v rest' h
        · cases hv : vocab[strToNat (strTrim s) - 1]? with
          | some w =>
            simp [askAmenity, hq, hd, hz, hv] at h
            exact Or.inl (h.1 ▸ mem_of_getElem?_string hv)
          | none =>
            simp [askAmenity, hq, hd, hz, hv] at h
            exact ih v rest' h
      · by_cases ht : strTrim s = ""
        · simp [askAmenity, hq, hd, ht] at h
          exact ih v rest' h
        · simp [askAmenity, hq, hd, ht] at h
          obtain ⟨rfl, -⟩ := h
          exact Or.inr ⟨by simpa using hd, by simpa using hq, ht⟩

/-- Claim C9: in the interactive prompt an all-digit answer is always
interpreted as a menu index — rejected with a re-prompt when it is 0 or
exceeds the vocabulary length, in particular always when the vocabulary
is empty — and an answer lower-casing to "q" (so "q" or "Q") always
quits; consequently a value picked for a feature is either a vocabulary
entry chosen by index or a non-empty free text that is neither all-digits
nor a quit token. -/
theorem digit_and_quit_answers (vocab : List String) :
    (∀ s rest, isDigits (strTrim s) = true → strToNat (strTrim s) = 0 →
        askAmenity vocab (s :: rest) = askAmenity vocab rest)
    ∧ (∀ s rest, isDigits (strTrim s) = true → vocab[strToNat (strTrim s) - 1]? = none →
        askAmenity vocab (s :: rest) = askAmenity vocab rest)
    ∧ (∀ s rest, isDigits (strTrim s) = true → askAmenity [] (s :: rest) = askAmenity [] rest)
    ∧ (∀ s rest, strLower (strTrim s) = "q" → askAmenity vocab (s :: rest) = some (.quit, rest))
    ∧ (∀ script v rest', askAmenity vocab script = some (.pick v, rest') →
        v ∈ vocab ∨ (isDigits v = false ∧ strLower v ≠ "q" ∧ v ≠ "")) := by
  refine ⟨?_, ?_, ?_, ?_, fun script => askAmenity_pick_spec vocab script⟩
  · intro s rest hd hz
    have hq : (strLower (strTrim s) == "q") = false := by
      simpa using digits_not_q hd
    simp [askAmenity, hq, hd, hz]
  · intro s rest hd hv
    have hq : (strLower (strTrim s) == "q") = false := by
      simpa using digits_not_q hd
    by_cases hz : strToNat (strTrim s) = 0
    · simp [askAmenity, hq, hd, hz]
    · simp [askAmenity, hq, hd, hz, hv]
  · intro s rest hd
    have hq : (strLower (strTrim s) == "q") = false := by
      simpa using digits_not_q hd
    by_cases hz : strToNat (strTrim s) = 0
    · simp [askAmenity, hq, hd, hz]
    · simp [askAmenity, hq, hd, hz]
  · intro s rest hq
    simp [askAmenity, hq]

/-- Witness for C9 at concrete answers: the digit 7 is rejected against a
one-entry menu and against an empty menu, "Q" quits, and a picked value
is never an all-digit string appearing as free text. -/
theorem digit_and_quit_answers_checked :
    askAmenity ["cafe"] ["7", "x"] = askAmenity ["cafe"] ["x"]
    ∧ askAmenity [] ["7", "q"] = askAmenity [] ["q"]
    ∧ askAmenity ["cafe"] ["Q", "1"] = some (.quit, ["1"])
    ∧ ("bar" ∈ ["cafe"] ∨ (isDigits "bar" = false ∧ strLower "bar" ≠ "q" ∧ "bar" ≠ "")) :=
  ⟨(digit_and_quit_answers ["cafe"]).2.1 "7" ["x"] (by decide) (by decide),
   (digit_and_quit_answers []).2.2.1 "7" ["q"] (by decide),
   (digit_and_quit_answers ["cafe"]).2.2.2.1 "Q" ["1"] (by decide),
   (digit_and_quit_answers ["cafe"]).2.2.2.2 ["bar"] "bar" [] (by decide)⟩

/-- Claim C7: a blank answer and an out-of-range menu index are rejected
and re-prompted, never assigned; an in-range 1-based all-digit answer
selects the corresponding vocabulary entry; any other non-empty text is
used verbatim; and the quit token makes the interactive loop write the
dataset to the resume file and the cache to disk and stop without
touching further features. -/
theorem interactive_input_validation (vocab : List String) (cache : Cache) :
    (∀ s rest, strTrim s = "" → askAmenity vocab (s :: rest) = askAmenity vocab rest)
    ∧ (∀ s rest, isDigits (strTrim s) = true →
        (strToNat (strTrim s) = 0 ∨ vocab[strToNat (strTrim s) - 1]? = none) →
        askAmenity vocab (s :: rest) = askAmenity vocab rest)
    ∧ (∀ s rest v, isDigits (strTrim s) = true → strToNat (strTrim s) ≠ 0 →
        vocab[strToNat (strTrim s) - 1]? = some v →
        askAmenity vocab (s :: rest) = some (.pick v, rest))
    ∧ (∀ s rest, strTrim s ≠ "" → isDigits (strTrim s) = false → strLower (strTrim s) ≠ "q" →
        askAmenity vocab (s :: rest) = some (.pick (strTrim s), rest))
    ∧ (∀ (fs : List Feature) (i : Nat) idxs s script, strLower (strTrim s) = "q" →
        interactLoop vocab cache fs (i :: idxs) (s :: script) =
          some (fs, [Ev.annPrompt i (displayName ((fs[i]?).getD default)),
                     Ev.saveResume fs, Ev.saveCache cache], true)) := by
  refine ⟨?_, ?_, ?_, ?_, ?_⟩
  · intro s rest ht
    have hq : (strLower (strTrim s) == "q") = false := by
      rw [ht]
      decide
    have hd : isDigits (strTrim s) = false := by
      rw [ht]
      decide
    have htb : (strTrim s == "") = true := by
      simp [ht]
    simp [askAmenity, hq, hd, htb]
  · intro s rest hd hrange
    have hq : (strLower (strTrim s) == "q") = false := by
      simpa using digits_not_q hd
    rcases hrange with hz | hv
    · simp [askAmenity, hq, hd, hz]
    · by_cases hz : strToNat (strTrim s) = 0
      · simp [askAmenity, hq, hd, hz]
      · simp [askAmenity, hq, hd, hz, hv]
  · intro s rest v hd hz hv
    have hq : (strLower (strTrim s) == "q") = false := by
      simpa using digits_not_q hd
    simp [askAmenity, hq, hd, hz, hv]
  · intro s rest ht hd hq
    have hq' : (strLower (strTrim s) == "q") = false := by
      simpa using hq
    simp [askAmenity, hq', hd, ht]
  · intro fs i idxs s script hq
    have hq' : (strLower (strTrim s) == "q") = true := by
      simpa using hq
    simp [interactLoop, askAmenity, hq']

/-- Witness for C7 at concrete inputs: blank and the out-of-range index 3
are skipped, index 2 selects "bar", "pizza" is taken verbatim, and a quit
answer saves and stops a two-feature session. -/
theorem interactive_input_validation_checked :
    askAmenity ["cafe", "bar"] [" ", "3", "2"] = askAmenity ["cafe", "bar"] ["3", "2"]
    ∧ askAmenity ["cafe", "bar"] ["3", "2"] = askAmenity ["cafe", "bar"] ["2"]
    ∧ askAmenity ["cafe", "bar"] ["2"] = some (.pick "bar", [])
    ∧ askAmenity ["cafe", "bar"] ["pizza"] = some (.pick "pizza", [])
    ∧ interactLoop ["cafe", "bar"] [("A", "cafe")]
        [⟨some "Home", none⟩, ⟨some "Work", none⟩] [0, 1] ["q", "1"] =
        some ([⟨some "Home", none⟩, ⟨some "Work", none⟩],
              [Ev.annPrompt 0 "Home",
               Ev.saveResume [⟨some "Home", none⟩, ⟨some "Work", none⟩],
               Ev.saveCache [("A", "cafe")]], true) := by
  have h := interactive_input_validation ["cafe", "bar"] [("A", "cafe")]
  refine ⟨h.1 " " ["3", "2"] (by decide),
          h.2.1 "3" ["2"] (by decide) (Or.inr (by decide)),
          h.2.2.1 "2" [] "bar" (by decide) (by decide) (by decide),
          h.2.2.2.1 "pizza" [] (by decide) (by decide) (by decide),
          ?_⟩
  have h5 := h.2.2.2.2 [⟨some "Home", none⟩, ⟨some "Work", none⟩] 0 [1] "q" ["1"] (by decide)
  simpa using h5

/-! ## VocabularyReducer: claim C5 -/

theorem normalize_acc_key (l : List String) (acc : List (String × String))
    (hacc : ∀ p ∈ acc, p.1 = strLower (strTrim p.2)) :
    ∀ p ∈ l.foldl normStep acc, p.1 = strLower (strTrim p.2) := by
  induction l generalizing acc with
  | nil => exact hacc
  | cons a rest ih =>
    rw [List.foldl_cons]
    apply ih
    intro p hp
    by_cases hmem : acc.any (fun q => q.1 == strLower (strTrim a))
    · rw [normStep, if_pos hmem] at hp
      exact hacc p hp
    · rw [normStep, if_neg hmem] at hp
      rcases List.mem_append.1 hp with h | h
      · exact hacc p h
      · simp at h
        simp [h]

theorem normalize_acc_keys_nodup (l : List String) (acc : List (String × String))
    (hacc : (acc.map Prod.fst).Nodup) :
    ((l.foldl normStep acc).map Prod.fst).Nodup := by
  induction l generalizing acc with
  | nil => exact hacc
  | cons a rest ih =>
    rw [List.foldl_cons]
    apply ih
    by_cases hmem : acc.any (fun q => q.1 == strLower (strTrim a))
    · rw [normStep, if_pos hmem]
      exact hacc
    · rw [normStep, if_neg hmem]
      have hko : strLower (strTrim a) ∉ acc.map Prod.fst := by
        intro hk
        apply hmem
        rcases List.mem_map.1 hk with ⟨q, hq, hkq⟩
        exact List.any_eq_true.2 ⟨q, hq, by simp [hkq]⟩
      simp [List.nodup_append, hacc, hko]

theorem normalizedValues_nodup (l : List String) : (normalizedValues l).Nodup := by
  have hkey : ∀ p ∈ normalize l, p.1 = strLower (strTrim p.2) :=
    normalize_acc_key l [] (by simp)
  have hnd : ((normalize l).map Prod.fst).Nodup :=
    normalize_acc_keys_nodup l [] (by simp)
  have hmap : (normalize l).map Prod.fst =
      ((normalize l).map Prod.snd).map (fun v => strLower (strTrim v)) := by
    rw [List.map_map]
    exact List.map_congr_left (fun p hp => hkey p hp)
  rw [hmap] at hnd
  exact hnd.of_map

theorem clusterLoop_cons_mem {pool seen : List String} {item : String}
    (rest : List String) (hs : item ∈ seen) :
    clusterLoop pool (item :: rest) seen = clusterLoop pool rest seen := by
  simp [clusterLoop, hs]

theorem clusterLoop_cons_new {pool seen : List String} {item : String}
    (rest : List String) (hs : item ∉ seen) :
    clusterLoop pool (item :: rest) seen =
      ((getCloseMatches item pool).headD "" ::
         (clusterLoop pool rest (seen ++ getCloseMatches item pool)).1,
       getCloseMatches item pool ::
         (clusterLoop pool rest (seen ++ getCloseMatches item pool)).2) := by
  simp [clusterLoop, hs]

theorem clusterLoop_heads (pool : List String) (rem seen : List String) :
    (clusterLoop pool rem seen).1 =
      (clusterLoop pool rem seen).2.map (fun cl => cl.headD "") := by
  induction rem generalizing seen with
  | nil => rfl
  | cons item rest ih =>
    by_cases hs : item ∈ seen
    · rw [clusterLoop_cons_mem rest hs]
      exact ih seen
    · rw [clusterLoop_cons_new rest hs]
      simp [ih]

theorem clusterLoop_sublist (pool : List String) :
    ∀ rem seen : List String,
      (∀ x ∈ rem, (getCloseMatches x pool).headD "" = x) →
      (clusterLoop pool rem seen).1.Sublist rem := by
  intro rem
  induction rem with
  | nil =>
    intro seen _
    simp [clusterLoop]
  | cons item rest ih =>
    intro seen H
    by_cases hs : item ∈ seen
    · rw [clusterLoop_cons_mem rest hs]
      exact (ih seen (fun x hx => H x (List.mem_cons_of_mem item hx))).cons item
    · rw [clusterLoop_cons_new rest hs]
      show List.Sublist ((getCloseMatches item pool).headD "" ::
        (clusterLoop pool rest (seen ++ getCloseMatches item pool)).1) (item :: rest)
      rw [H item (List.mem_cons_self item rest)]
      exact (ih (seen ++ getCloseMatches item pool)
        (fun x hx => H x (List.mem_cons_of_mem item hx))).cons₂ item

theorem clusterLoop_cover (pool : List String) :
    ∀ rem seen : List String,
      (∀ x ∈ rem, (getCloseMatches x pool).headD "" = x) →
      ∀ x ∈ rem, x ∈ seen ∨ x ∈ (clusterLoop pool rem seen).1 ∨
        ∃ cl ∈ (clusterLoop pool rem seen).2, x ∈ cl := by
  intro rem
  induction rem with
  | nil =>
    intro seen _
    simp
  | cons item rest ih =>
    intro seen H x hx
    have Hrest : ∀ y ∈ rest, (getCloseMatches y pool).headD "" = y :=
      fun y hy => H y (List.mem_cons_of_mem item hy)
    by_cases hs : item ∈ seen
    · rw [clusterLoop_cons_mem rest hs]
      rcases List.mem_cons.1 hx with rfl | hx'
      · exact Or.inl hs
      · exact ih seen Hrest x hx'
    · rw [clusterLoop_cons_new rest hs]
      rcases List.mem_cons.1 hx with rfl | hx'
      · refine Or.inr (Or.inl ?_)
        rw [H x (List.mem_cons_self x rest)]
        exact List.mem_cons_self x _
      · rcases ih (seen ++ getCloseMatches item pool) Hrest x hx' with h | h | ⟨cl, hcl, hxcl⟩
        · rcases List.mem_append.1 h with h | h
          · exact Or.inl h
          · exact Or.inr (Or.inr ⟨getCloseMatches item pool,
              List.mem_cons_self _ _, h⟩)
        · exact Or.inr (Or.inl (List.mem_cons_of_mem _ h))
        · exact Or.inr (Or.inr ⟨cl, List.mem_cons_of_mem _ hcl, hxcl⟩)

/-- Claim C5 (amended): on any input whose normalized candidate pool has
every representative as the first (highest-ratio) match of its own
similarity search — which difflib guarantees, since a string matches
itself with ratio 1.0 — the greedy clustering emits a deduplicated list
of canonical labels; every representative appears in the output or in at
least one cluster's match list (possibly several, since match lists are
drawn from the full pool, consumed entries included, and are capped at
difflib's default of three); and each cluster's canonical label is the
first match the similarity search returns, i.e. the cluster's seed
itself, not necessarily its lexicographically-earliest member. -/
theorem clustering_coverage (amenities : List String)
    (H : ∀ x ∈ normalizedValues amenities,
      (getCloseMatches x (normalizedValues amenities)).headD "" = x) :
    (filter_similar_full amenities).1.Nodup
    ∧ (∀ x ∈ normalizedValues amenities,
        x ∈ (filter_similar_full amenities).1 ∨
        ∃ cl ∈ (filter_similar_full amenities).2, x ∈ cl)
    ∧ (filter_similar_full amenities).1 =
        (filter_similar_full amenities).2.map (fun cl => cl.headD "") := by
  refine ⟨?_, ?_, clusterLoop_heads _ _ _⟩
  · exact (normalizedValues_nodup amenities).sublist
      (clusterLoop_sublist (normalizedValues amenities) (normalizedValues amenities) [] H)
  · intro x hx
    rcases clusterLoop_cover (normalizedValues amenities) (normalizedValues amenities) [] H x hx with
      h | h | h
    · simp at h
    · exact Or.inl h
    · exact Or.inr h

/-- Witness for C5's amended statement on a concrete two-string pool. -/
theorem clustering_coverage_checked :
    (filter_similar_full ["b", "a"]).1.Nodup
    ∧ ("a" ∈ (filter_similar_full ["b", "a"]).1 ∨
        ∃ cl ∈ (filter_similar_full ["b", "a"]).2, "a" ∈ cl)
    ∧ (filter_similar_full ["b", "a"]).1 =
        (filter_similar_full ["b", "a"]).2.map (fun cl => cl.headD "") := by
  have h := clustering_coverage ["b", "a"] (by decide)
  exact ⟨h.1, h.2.1 "a" (by decide), h.2.2⟩

/-- Counterexample for C5 as stated: on the sorted input pool
["ammmmmd", "ammmmme", "bmmmmme"] (pairwise difflib ratios 12/14, 12/14
and 10/14 against the 0.85 cutoff), the representative "ammmmme" is
matched — consumed — by both formed clusters, and the second cluster's
canonical label "bmmmmme" is not its lexicographically-earliest member
"ammmmme"; so representatives are not assigned to exactly one cluster
and the canonical label is not the lexicographically-earliest member. -/
theorem cluster_overlap_example :
    (filter_similar_full ["ammmmmd", "ammmmme", "bmmmmme"]).2 =
      [["ammmmmd", "ammmmme"], ["bmmmmme", "ammmmme"]]
    ∧ (filter_similar_full ["ammmmmd", "ammmmme", "bmmmmme"]).2.countP
        (fun cl => cl.contains "ammmmme") = 2
    ∧ "ammmmme" ∉ (filter_similar_full ["ammmmmd", "ammmmme", "bmmmmme"]).1
    ∧ strLt "ammmmme" "bmmmmme" = true := by
  exact ⟨by decide, by decide, by decide, by decide⟩

/-! ## ChainDetector: claim C4 -/

theorem firstNonempty_ne {script : List String} {t : String} {rest : List String}
    (h : firstNonempty script = some (t, rest)) : t ≠ "" := by
  induction script generalizing rest with
  | nil => simp [firstNonempty] at h
  | cons s ss ih =>
    by_cases hts : (strTrim s == "") = true
    · rw [firstNonempty, if_pos hts] at h
      exact ih h
    · rw [firstNonempty, if_neg hts] at h
      injection h with h'
      injection h' with h1 h2
      rw [← h1]
      simpa using hts

theorem freqBump_keys (freq : List (String × Nat)) (n : String) :
    (freqBump freq n).map Prod.fst =
      if freq.any (fun p => p.1 == n) then freq.map Prod.fst
      else freq.map Prod.fst ++ [n] := by
  induction freq with
  | nil => simp [freqBump]
  | cons p rest ih =>
    by_cases hp : (p.1 == n) = true
    · simp [freqBump, hp, List.any_cons]
    · by_cases hr : rest.any (fun q => q.1 == n) <;>
        simp [freqBump, hp, hr, List.any_cons, ih]

theorem freqBump_keys_nodup {freq : List (String × Nat)}
    (h : (freq.map Prod.fst).Nodup) (n : String) :
    ((freqBump freq n).map Prod.fst).Nodup := by
  rw [freqBump_keys]
  by_cases ha : freq.any (fun p => p.1 == n)
  · simp [ha, h]
  · have hn : n ∉ freq.map Prod.fst := by
      intro hmem
      apply ha
      rcases List.mem_map.1 hmem with ⟨q, hq, hqn⟩
      exact List.any_eq_true.2 ⟨q, hq, by simp [hqn]⟩
    simp [ha, List.nodup_append, h, hn]

theorem build_name_frequency_acc_nodup (fs : List Feature)
    (freq : List (String × Nat)) (h : (freq.map Prod.fst).Nodup) :
    ((fs.foldl
      (fun freq f =>
        match f.name with
        | none => freq
        | some raw =>
          if raw == "" then freq
          else
            let n := strTrim raw
            if n == "" then freq else freqBump freq n)
      freq).map Prod.fst).Nodup := by
  induction fs generalizing freq with
  | nil => exact h
  | cons f rest ih =>
    rw [List.foldl_cons]
    cases hn : f.name with
    | none => exact ih freq h
    | some raw =>
      by_cases hraw : (raw == "") = true
      · simp only [hraw, if_pos]
        exact ih freq h
      · by_cases htrim : (strTrim raw == "") = true
        · simp only [hraw, htrim, if_neg, if_pos]
          exact ih freq h
        · simp only [hraw, htrim, if_neg]
          exact ih (freqBump freq (strTrim raw)) (freqBump_keys_nodup h (strTrim raw))

theorem build_name_frequency_keys_nodup (fs : List Feature) :
    ((build_name_frequency fs).map Prod.fst).Nodup := by
  exact build_name_frequency_acc_nodup fs [] (by simp)

theorem prefillLoop_preserves (freq : List (String × Nat)) :
    ∀ cache script out, prefillLoop cache freq script = some out →
      ∀ n, cacheMem cache n = true → cacheGet out.1 n = cacheGet cache n := by
  induction freq with
  | nil =>
    intro cache script out h n _
    simp [prefillLoop] at h
    subst h
    rfl
  | cons p rest ih =>
    intro cache script out h n hn
    by_cases hq : (decide (1 < p.2) && !cacheMem cache p.1) = true
    · rw [prefillLoop, if_pos hq] at h
      cases hfn : firstNonempty script with
      | none => simp [hfn] at h
      | some pr =>
        rw [hfn] at h
        rcases Option.map_eq_some'.1 h with ⟨r, hr, rfl⟩
        have hne : n ≠ p.1 := by
          intro hcontra
          rw [hcontra] at hn
          simp [Bool.and_eq_true] at hq
          rw [hn] at hq
          simp at hq
        have hmem : cacheMem (cachePut cache p.1 pr.1) n = true := by
          rw [cacheMem_put]
          simp [hn]
        have := ih (cachePut cache p.1 pr.1) pr.2 r hr n hmem
        rw [this, cacheGet_put_ne cache p.1 pr.1 n hne]
    · rw [prefillLoop, if_neg hq] at h
      exact ih cache script out h n hn

theorem prefillLoop_trace (freq : List (String × Nat)) :
    ∀ cache script out, ((freq.map Prod.fst).Nodup) →
      prefillLoop cache freq script = some out →
      out.2.2 = (freq.filter (fun p => decide (1 < p.2) && !cacheMem cache p.1)).map
        (fun p => Ev.chainPrompt p.1 p.2) := by
  induction freq with
  | nil =>
    intro cache script out _ h
    simp [prefillLoop] at h
    subst h
    simp
  | cons p rest ih =>
    intro cache script out hnd h
    have hndr : (rest.map Prod.fst).Nodup := (List.nodup_cons.1 hnd).2
    have hp1 : p.1 ∉ rest.map Prod.fst := (List.nodup_cons.1 hnd).1
    by_cases hq : (decide (1 < p.2) && !cacheMem cache p.1) = true
    · rw [prefillLoop, if_pos hq] at h
      cases hfn : firstNonempty script with
      | none => simp [hfn] at h
      | some pr =>
        rw [hfn] at h
        rcases Option.map_eq_some'.1 h with ⟨r, hr, rfl⟩
        have htail := ih (cachePut cache p.1 pr.1) pr.2 r hndr hr
        have hcong : rest.filter (fun q => decide (1 < q.2) &&
            !cacheMem (cachePut cache p.1 pr.1) q.1) =
            rest.filter (fun q => decide (1 < q.2) && !cacheMem cache q.1) := by
          apply List.filter_congr
          intro q hqmem
          have hqne : (q.1 == p.1) = false := by
            simp only [beq_eq_false_iff_ne]
            intro hcontra
            exact hp1 (hcontra ▸ List.mem_map_of_mem Prod.fst hqmem)
          rw [cacheMem_put]
          rw [hqne]
          simp
        rw [List.filter_cons, if_pos hq, List.map_cons]
        simp only [Prod.mk.injEq]
        rw [← hcong, ← htail]
    · rw [prefillLoop, if_neg hq] at h
      rw [List.filter_cons, if_neg hq]
      exact ih cache script out hndr h

theorem prefillLoop_values (freq : List (String × Nat)) :
    ∀ cache script out, ((freq.map Prod.fst).Nodup) →
      prefillLoop cache freq script = some out →
      ∀ p ∈ freq.filter (fun p => decide (1 < p.2) && !cacheMem cache p.1),
        ∃ v, cacheGet out.1 p.1 = some v ∧ v ≠ "" := by
  induction freq with
  | nil =>
    intro cache script out _ _ p hp
    simp at hp
  | cons q rest ih =>
    intro cache script out hnd h p hp
    have hndr : (rest.map Prod.fst).Nodup := (List.nodup_cons.1 hnd).2
    have hq1 : q.1 ∉ rest.map Prod.fst := (List.nodup_cons.1 hnd).1
    by_cases hq : (decide (1 < q.2) && !cacheMem cache q.1) = true
    · rw [prefillLoop, if_pos hq] at h
      cases hfn : firstNonempty script with
      | none => simp [hfn] at h
      | some pr =>
        rw [hfn] at h
        rcases Option.map_eq_some'.1 h with ⟨r, hr, rfl⟩
        rw [List.filter_cons, if_pos hq] at hp
        rcases List.mem_cons.1 hp with rfl | hp'
        · refine ⟨pr.1, ?_, firstNonempty_ne (by rw [hfn])⟩
          have hmem : cacheMem (cachePut cache p.1 pr.1) p.1 = true := by
            simp [cacheMem, cacheGet_put_self]
          have := prefillLoop_preserves rest (cachePut cache p.1 pr.1) pr.2 r hr p.1 hmem
          rw [this, cacheGet_put_self]
        · have hcong : rest.filter (fun w => decide (1 < w.2) &&
              !cacheMem (cachePut cache q.1 pr.1) w.1) =
              rest.filter (fun w => decide (1 < w.2) && !cacheMem cache w.1) := by
            apply List.filter_congr
            intro w hwmem
            have hwne : (w.1 == q.1) = false := by
              simp only [beq_eq_false_iff_ne]
              intro hcontra
              exact hq1 (hcontra ▸ List.mem_map_of_mem Prod.fst hwmem)
            rw [cacheMem_put]
            rw [hwne]
            simp
          exact ih (cachePut cache q.1 pr.1) pr.2 r hndr hr p (by rw [hcong]; exact hp')
    · rw [prefillLoop, if_neg hq] at h
      rw [List.filter_cons, if_neg hq] at hp
      exact ih cache script out hndr h p hp

theorem prefillLoop_dom (freq : List (String × Nat)) :
    ∀ cache script out, prefillLoop cache freq script = some out →
      ∀ n, cacheMem out.1 n = true →
        cacheMem cache n = true ∨ ∃ c, Ev.chainPrompt n c ∈ out.2.2 := by
  induction freq with
  | nil =>
    intro cache script out h n hn
    simp [prefillLoop] at h
    subst h
    exact Or.inl hn
  | cons p rest ih =>
    intro cache script out h n hn
    by_cases hq : (decide (1 < p.2) && !cacheMem cache p.1) = true
    · rw [prefillLoop, if_pos hq] at h
      cases hfn : firstNonempty script with
      | none => simp [hfn] at h
      | some pr =>
        rw [hfn] at h
        rcases Option.map_eq_some'.1 h with ⟨r, hr, rfl⟩
        rcases ih (cachePut cache p.1 pr.1) pr.2 r hr n hn with hmem | ⟨c, hc⟩
        · rw [cacheMem_put] at hmem
          rcases Bool.or_eq_true_iff.1 hmem with hmem | hmem
          · exact Or.inl hmem
          · refine Or.inr ⟨p.2, ?_⟩
            have : n = p.1 := by simpa using hmem
            rw [this]
            exact List.mem_cons_self _ _
        · exact Or.inr ⟨c, List.mem_cons_of_mem _ hc⟩
    · rw [prefillLoop, if_neg hq] at h
      exact ih cache script out h n hn

/-- Claim C4: ChainDetector prompts exactly once per distinct trimmed
name with occurrence count greater than 1 that is not already cached —
the prompt trace is exactly one chainPrompt per such name, those names
are pairwise distinct, each receives a non-empty answer stored in the
cache — and prompts for no other name; previously cached entries are left
untouched, and every new cache key was prompted. -/
theorem chain_prompt_once (cache : Cache) (fs : List Feature) (script : List String)
    (out : Cache × List String × List Ev)
    (h : prefill_chains cache (build_name_frequency fs) script = some out) :
    out.2.2.dropLast =
      ((build_name_frequency fs).filter
        (fun p => decide (1 < p.2) && !cacheMem cache p.1)).map
        (fun p => Ev.chainPrompt p.1 p.2)
    ∧ (((build_name_frequency fs).filter
        (fun p => decide (1 < p.2) && !cacheMem cache p.1)).map Prod.fst).Nodup
    ∧ (∀ p ∈ (build_name_frequency fs).filter
        (fun p => decide (1 < p.2) && !cacheMem cache p.1),
        ∃ v, cacheGet out.1 p.1 = some v ∧ v ≠ "")
    ∧ (∀ n, cacheMem cache n = true → cacheGet out.1 n = cacheGet cache n)
    ∧ (∀ n, cacheMem out.1 n = true →
        cacheMem cache n = true ∨ ∃ c, Ev.chainPrompt n c ∈ out.2.2) := by
  rcases Option.map_eq_some'.1 h with ⟨r, hr, rfl⟩
  have hnd := build_name_frequency_keys_nodup fs
  refine ⟨?_, ?_, ?_, ?_, ?_⟩
  · simp only [List.dropLast_concat]
    exact prefillLoop_trace (build_name_frequency fs) cache script r hnd hr
  · exact hnd.sublist ((List.filter_sublist _).map Prod.fst)
  · exact prefillLoop_values (build_name_frequency fs) cache script r hnd hr
  · exact prefillLoop_preserves (build_name_frequency fs) cache script r hr
  · intro n hn
    rcases prefillLoop_dom (build_name_frequency fs) cache script r hr n hn with hm | ⟨c, hc⟩
    · exact Or.inl hm
    · exact Or.inr ⟨c, List.mem_append_left _ hc⟩

/-! ## Flush discipline: claim C1 -/

theorem prefillLoop_prompts (freq : List (String × Nat)) :
    ∀ cache script out, prefillLoop cache freq script = some out →
      ∀ e ∈ out.2.2, isPromptEv e = true := by
  induction freq with
  | nil =>
    intro cache script out h e he
    simp [prefillLoop] at h
    subst h
    simp at he
  | cons p rest ih =>
    intro cache script out h e he
    by_cases hq : (decide (1 < p.2) && !cacheMem cache p.1) = true
    · rw [prefillLoop, if_pos hq] at h
      cases hfn : firstNonempty script with
      | none => simp [hfn] at h
      | some pr =>
        rw [hfn] at h
        rcases Option.map_eq_some'.1 h with ⟨r, hr, rfl⟩
        rcases List.mem_cons.1 he with rfl | he'
        · rfl
        · exact ih (cachePut cache p.1 pr.1) pr.2 r hr e he'
    · rw [prefillLoop, if_neg hq] at h
      exact ih cache script out h e he

theorem interactLoop_scanFlush (vocab : List String) (cache : Cache) :
    ∀ idxs fs script out, interactLoop vocab cache fs idxs script = some out →
      scanFlush false false out.2.1 = true := by
  intro idxs
  induction idxs with
  | nil =>
    intro fs script out h
    simp [interactLoop] at h
    subst h
    rfl
  | cons i rest ih =>
    intro fs script out h
    cases hask : askAmenity vocab script with
    | none =>
      simp only [interactLoop, hask] at h
      simp at h
    | some a =>
      obtain ⟨ans, script'⟩ := a
      cases ans with
      | quit =>
        simp only [interactLoop, hask, Option.some.injEq] at h
        subst h
        rfl
      | pick v =>
        simp only [interactLoop, hask] at h
        rcases Option.map_eq_some'.1 h with ⟨r, hr, rfl⟩
        have htail := ih (setAmenity fs i v) script' r hr
        simpa [scanFlush, isPromptEv, isSaveResumeEv, isSaveCacheEv] using htail

theorem retagLoop_scanFlush :
    ∀ idxs fs cache script out, retagLoop fs idxs cache script = some out →
      scanFlush false false out.2.2 = true := by
  intro idxs
  induction idxs with
  | nil =>
    intro fs cache script out h
    simp [retagLoop] at h
    subst h
    rfl
  | cons i rest ih =>
    intro fs cache script out h
    cases hhit : cacheGet cache (displayName ((fs[i]?).getD default)) with
    | some v =>
      simp only [retagLoop, hhit] at h
      rcases Option.map_eq_some'.1 h with ⟨r, hr, rfl⟩
      have htail := ih (setAmenity fs i v) cache script r hr
      simpa [scanFlush, isPromptEv, isSaveResumeEv, isSaveCacheEv] using htail
    | none =>
      cases hask : askRetag script with
      | none =>
        simp only [retagLoop, hhit, hask] at h
        simp at h
      | some a =>
        obtain ⟨ans, script'⟩ := a
        cases ans with
        | quit =>
          simp only [retagLoop, hhit, hask, Option.some.injEq] at h
          subst h
          rfl
        | pick v =>
          simp only [retagLoop, hhit, hask] at h
          rcases Option.map_eq_some'.1 h with ⟨r, hr, rfl⟩
          have htail := ih (setAmenity fs i v)
            (cachePut cache (displayName ((fs[i]?).getD default)) v) script' r hr
          simpa [scanFlush, isPromptEv, isSaveResumeEv, isSaveCacheEv] using htail

/-- Counterexample for C1 as stated: with an empty cache, two distinct
chains "A" and "B" and the answers "x", "y", the chain detector's trace
is two prompts followed by a single cache write — the resolution of "A"
(present in the final cache) is not persisted anywhere before the prompt
for "B", so a flush does not follow every successful resolution before
the next user-facing prompt. -/
theorem chains_not_flushed_between_prompts :
    prefill_chains []
      (build_name_frequency
        [⟨some "A", none⟩, ⟨some "A", none⟩, ⟨some "B", none⟩, ⟨some "B", none⟩])
      ["x", "y"] =
      some ([("A", "x"), ("B", "y")], [],
        [Ev.chainPrompt "A" 2, Ev.chainPrompt "B" 2,
         Ev.saveCache [("A", "x"), ("B", "y")]])
    ∧ scanCacheFlush false
        [Ev.chainPrompt "A" 2, Ev.chainPrompt "B" 2,
         Ev.saveCache [("A", "x"), ("B", "y")]] = false
    ∧ cacheGet [("A", "x"), ("B", "y")] "A" = some "x" :=
  ⟨by decide, by decide, by decide⟩

/-- Claim C1 (amended): the annotation engine's interactive loop writes
both the resume file and the cache after every resolution, before the
next prompt; the retagger does the same after every manually answered
retag (automatic cache-hit retags are applied in memory only and reach
disk only with the next manual save or quit); the chain detector instead
performs a single cache write after all chain prompts have been answered,
its trace being the prompts followed by exactly one saveCache of the
final cache. -/
theorem flush_discipline :
    (∀ env vocab cache script out,
        process_geojson env vocab cache script = some out →
        scanFlush false false out.2.1 = true)
    ∧ (∀ cache freq script out,
        prefill_chains cache freq script = some out →
        out.2.2 = out.2.2.dropLast ++ [Ev.saveCache out.1]
        ∧ ∀ e ∈ out.2.2.dropLast, isPromptEv e = true)
    ∧ (∀ fs cache script out,
        process_retag fs cache script = some out →
        scanFlush false false out.2.2 = true) := by
  refine ⟨?_, ?_, ?_⟩
  · intro env vocab cache script out h
    simp only [process_geojson] at h
    rcases Option.map_eq_some'.1 h with ⟨r, hr, rfl⟩
    have := interactLoop_scanFlush vocab cache _ _ _ _ hr
    simpa [scanFlush, isPromptEv, isSaveResumeEv, isSaveCacheEv] using this
  · intro cache freq script out h
    rcases Option.map_eq_some'.1 h with ⟨r, hr, rfl⟩
    constructor
    · simp [List.dropLast_concat]
    · simp only [List.dropLast_concat]
      exact prefillLoop_prompts freq cache script r hr
  · intro fs cache script out h
    simp only [process_retag] at h
    by_cases hemp : (targetIdxFrom 0 fs).isEmpty
    · rw [if_pos hemp] at h
      simp at h
      subst h
      rfl
    · rw [if_neg hemp] at h
      exact retagLoop_scanFlush (targetIdxFrom 0 fs) fs cache script out h

/-- Witness for C1's amended statement at three concrete runs. -/
theorem flush_discipline_checked :
    scanFlush false false
      [Ev.report 1 0 0 1, Ev.annPrompt 0 "H",
       Ev.saveResume [⟨some "H", some "cafe"⟩], Ev.saveCache []] = true
    ∧ ([Ev.chainPrompt "A" 2, Ev.chainPrompt "B" 2,
        Ev.saveCache [("A", "x"), ("B", "y")]] =
        [Ev.chainPrompt "A" 2, Ev.chainPrompt "B" 2,
         Ev.saveCache [("A", "x"), ("B", "y")]].dropLast ++
          [Ev.saveCache [("A", "x"), ("B", "y")]])
    ∧ scanFlush false false
        [Ev.retagPrompt 0 "S", Ev.saveResume [⟨some "S", some "books"⟩],
         Ev.saveCache [("S", "books")]] = true := by
  refine ⟨?_, ?_, ?_⟩
  · exact (flush_discipline).1 ⟨"p_no_amenity.geojson", false, [⟨some "H", none⟩], []⟩
      [] [] ["cafe"]
      ([⟨some "H", some "cafe"⟩],
       [Ev.report 1 0 0 1, Ev.annPrompt 0 "H",
        Ev.saveResume [⟨some "H", some "cafe"⟩], Ev.saveCache []], false)
      (by decide)
  · exact ((flush_discipline).2.1 []
      (build_name_frequency
        [⟨some "A", none⟩, ⟨some "A", none⟩, ⟨some "B", none⟩, ⟨some "B", none⟩])
      ["x", "y"]
      ([("A", "x"), ("B", "y")], [],
       [Ev.chainPrompt "A" 2, Ev.chainPrompt "B" 2,
        Ev.saveCache [("A", "x"), ("B", "y")]])
      (by decide)).1
  · exact (flush_discipline).2.2 [⟨some "S", some "retail_store"⟩] [] ["books"]
      ([⟨some "S", some "books"⟩], [("S", "books")],
       [Ev.retagPrompt 0 "S", Ev.saveResume [⟨some "S", some "books"⟩],
        Ev.saveCache [("S", "books")]])
      (by decide)

/-- Witness for C4 at the concrete batch [A, A, B, B] with answers x, y. -/
theorem chain_prompt_once_checked :
    [Ev.chainPrompt "A" 2, Ev.chainPrompt "B" 2,
      Ev.saveCache [("A", "x"), ("B", "y")]].dropLast =
      ((build_name_frequency
        [⟨some "A", none⟩, ⟨some "A", none⟩, ⟨some "B", none⟩, ⟨some "B", none⟩]).filter
        (fun p => decide (1 < p.2) && !cacheMem [] p.1)).map
        (fun p => Ev.chainPrompt p.1 p.2)
    ∧ ∃ v, cacheGet [("A", "x"), ("B", "y")] "A" = some v ∧ v ≠ "" := by
  have h := chain_prompt_once []
    [⟨some "A", none⟩, ⟨some "A", none⟩, ⟨some "B", none⟩, ⟨some "B", none⟩]
    ["x", "y"]
    ([("A", "x"), ("B", "y")], [],
     [Ev.chainPrompt "A" 2, Ev.chainPrompt "B" 2,
      Ev.saveCache [("A", "x"), ("B", "y")]])
    (by decide)
  exact ⟨h.1, h.2.2.1 ("A", 2) (by decide)⟩

/-! ## AnnotationEngine auto-fill and resume: claims C3 and C2 -/

theorem autoFill_length (cache : Cache) (fs : List Feature) :
    (autoFill cache fs).1.length = fs.length := by
  induction fs with
  | nil => rfl
  | cons f rest ih =>
    by_cases hres : f.resolvedB
    · simp [autoFill, hres, ih]
    · cases hget : cacheGet cache (trimName f) <;> simp [autoFill, hres, hget, ih]

theorem autoFill_get (cache : Cache) (fs : List Feature) (i : Nat) :
    (autoFill cache fs).1[i]? = (fs[i]?).map (fun f =>
      if f.resolvedB then f
      else
        match cacheGet cache (trimName f) with
        | some v => { f with amenity := some v }
        | none => f) := by
  induction fs generalizing i with
  | nil => simp [autoFill]
  | cons f rest ih =>
    cases i with
    | zero =>
      by_cases hres : f.resolvedB
      · simp [autoFill, hres]
      · cases hget : cacheGet cache (trimName f) <;> simp [autoFill, hres, hget]
    | succ i' =>
      by_cases hres : f.resolvedB
      · simpa [autoFill, hres] using ih i'
      · cases hget : cacheGet cache (trimName f) <;>
          simpa [autoFill, hres, hget] using ih i'

theorem autoFill_countP {cache : Cache} (hwf : cacheWF cache) (fs : List Feature) :
    (autoFill cache fs).1.countP Feature.resolvedB =
      fs.countP Feature.resolvedB + (autoFill cache fs).2 := by
  induction fs with
  | nil => rfl
  | cons f rest ih =>
    by_cases hres : f.resolvedB
    · simp [autoFill, hres, List.countP_cons, ih]
      omega
    · cases hget : cacheGet cache (trimName f) with
      | none => simp [autoFill, hres, hget, List.countP_cons, ih]
      | some v =>
        have hv : v ≠ "" := cacheWF_get hwf hget
        have hrv : ({ f with amenity := some v } : Feature).resolvedB = true := by
          simp [resolvedB_set, hv]
        simp [autoFill, hres, hget, List.countP_cons, ih, hrv]
        omega

theorem autoFill_all_resolved {cache : Cache} {fs : List Feature}
    (h : ∀ f ∈ fs, f.resolvedB = true) : autoFill cache fs = (fs, 0) := by
  induction fs with
  | nil => rfl
  | cons f rest ih =>
    have hres : f.resolvedB = true := h f (List.mem_cons_self f rest)
    have htail := ih (fun g hg => h g (List.mem_cons_of_mem f hg))
    simp [autoFill, hres, htail]

theorem mem_unfinIdxFrom (fs : List Feature) :
    ∀ i j, j ∈ unfinIdxFrom i fs ↔
      (i ≤ j ∧ ∃ f, fs[j - i]? = some f ∧ f.resolvedB = false) := by
  induction fs with
  | nil => simp [unfinIdxFrom]
  | cons f rest ih =>
    intro i j
    by_cases hres : f.resolvedB = true
    · rw [unfinIdxFrom, if_pos hres, ih (i + 1) j]
      constructor
      · rintro ⟨hij, g, hg, hgres⟩
        refine ⟨by omega, g, ?_, hgres⟩
        have hidx : j - i = (j - (i + 1)) + 1 := by omega
        rw [hidx, List.getElem?_cons_succ]
        exact hg
      · rintro ⟨hij, g, hg, hgres⟩
        rcases Nat.eq_or_lt_of_le hij with rfl | hlt
        · rw [Nat.sub_self, List.getElem?_cons_zero] at hg
          injection hg with hg
          rw [← hg] at hgres
          rw [hres] at hgres
          cases hgres
        · refine ⟨by omega, g, ?_, hgres⟩
          have hidx : j - i = (j - (i + 1)) + 1 := by omega
          rw [hidx, List.getElem?_cons_succ] at hg
          exact hg
    · rw [unfinIdxFrom, if_neg hres]
      constructor
      · intro hj
        rcases List.mem_cons.1 hj with rfl | hj'
        · exact ⟨le_refl j, f, by simp, by simpa using hres⟩
        · rcases (ih (i + 1) j).1 hj' with ⟨hij, g, hg, hgres⟩
          refine ⟨by omega, g, ?_, hgres⟩
          have hidx : j - i = (j - (i + 1)) + 1 := by omega
          rw [hidx, List.getElem?_cons_succ]
          exact hg
      · rintro ⟨hij, g, hg, hgres⟩
        rcases Nat.eq_or_lt_of_le hij with rfl | hlt
        · exact List.mem_cons_self _ _
        · refine List.mem_cons_of_mem _ ((ih (i + 1) j).2 ⟨by omega, g, ?_, hgres⟩)
          have hidx : j - i = (j - (i + 1)) + 1 := by omega
          rw [hidx, List.getElem?_cons_succ] at hg
          exact hg

theorem mem_unfinIdx (fs : List Feature) (j : Nat) :
    j ∈ unfinIdx fs ↔ ∃ f, fs[j]? = some f ∧ f.resolvedB = false := by
  rw [unfinIdx, mem_unfinIdxFrom fs 0 j]
  simp

theorem unfinIdxFrom_nodup (fs : List Feature) : ∀ i, (unfinIdxFrom i fs).Nodup := by
  induction fs with
  | nil => intro i; simp [unfinIdxFrom]
  | cons f rest ih =>
    intro i
    by_cases hres : f.resolvedB = true
    · rw [unfinIdxFrom, if_pos hres]
      exact ih (i + 1)
    · rw [unfinIdxFrom, if_neg hres]
      refine List.nodup_cons.2 ⟨?_, ih (i + 1)⟩
      intro hmem
      have := ((mem_unfinIdxFrom rest (i + 1) i).1 hmem).1
      omega

theorem unfinIdxFrom_length (fs : List Feature) :
    ∀ i, (unfinIdxFrom i fs).length = fs.countP (fun f => !f.resolvedB) := by
  induction fs with
  | nil => intro i; rfl
  | cons f rest ih =>
    intro i
    by_cases hres : f.resolvedB = true <;>
      simp [unfinIdxFrom, hres, List.countP_cons, ih]

theorem interactLoop_prompt_mem (vocab : List String) (cache : Cache) :
    ∀ idxs fs script out, interactLoop vocab cache fs idxs script = some out →
      ∀ j n, Ev.annPrompt j n ∈ out.2.1 → j ∈ idxs := by
  intro idxs
  induction idxs with
  | nil =>
    intro fs script out h j n hmem
    simp [interactLoop] at h
    subst h
    simp at hmem
  | cons i rest ih =>
    intro fs script out h j n hmem
    cases hask : askAmenity vocab script with
    | none =>
      simp only [interactLoop, hask] at h
      simp at h
    | some a =>
      obtain ⟨ans, script'⟩ := a
      cases ans with
      | quit =>
        simp only [interactLoop, hask, Option.some.injEq] at h
        subst h
        simp only [List.mem_cons] at hmem
        rcases hmem with he | he | he | he
        · injection he with he1 _
          simp [he1]
        · cases he
        · cases he
        · cases he
      | pick v =>
        simp only [interactLoop, hask] at h
        rcases Option.map_eq_some'.1 h with ⟨r, hr, rfl⟩
        simp only [List.mem_cons] at hmem
        rcases hmem with he | he | he | he
        · injection he with he1 _
          simp [he1]
        · cases he
        · cases he
        · exact List.mem_cons_of_mem i (ih (setAmenity fs i v) script' r hr j n he)

theorem interactLoop_untouched (vocab : List String) (cache : Cache) :
    ∀ idxs fs script out, interactLoop vocab cache fs idxs script = some out →
      ∀ j, j ∉ idxs → out.1[j]? = fs[j]? := by
  intro idxs
  induction idxs with
  | nil =>
    intro fs script out h j _
    simp [interactLoop] at h
    subst h
    rfl
  | cons i rest ih =>
    intro fs script out h j hj
    have hji : j ≠ i := fun hc => hj (hc ▸ List.mem_cons_self i rest)
    have hjr : j ∉ rest := fun hc => hj (List.mem_cons_of_mem i hc)
    cases hask : askAmenity vocab script with
    | none =>
      simp only [interactLoop, hask] at h
      simp at h
    | some a =>
      obtain ⟨ans, script'⟩ := a
      cases ans with
      | quit =>
        simp only [interactLoop, hask, Option.some.injEq] at h
        subst h
        rfl
      | pick v =>
        simp only [interactLoop, hask] at h
        rcases Option.map_eq_some'.1 h with ⟨r, hr, rfl⟩
        rw [ih (setAmenity fs i v) script' r hr j hjr]
        exact setAmenity_get_ne fs i j v hji

/-- Claim C3: during AUTO_FILLING every unresolved feature whose trimmed
name is a cache key gets the cached value as its amenity, already
resolved features are returned unchanged, and a feature that was
unresolved at load time but auto-fillable is never prompted in the
interactive phase. -/
theorem autofill_from_cache (cache : Cache) (hwf : cacheWF cache) :
    (∀ fs (i : Nat) f v, fs[i]? = some f → f.resolvedB = false →
        cacheGet cache (trimName f) = some v →
        (autoFill cache fs).1[i]? = some { f with amenity := some v })
    ∧ (∀ fs (i : Nat) f, fs[i]? = some f → f.resolvedB = true →
        (autoFill cache fs).1[i]? = some f)
    ∧ (∀ env vocab script out, process_geojson env vocab cache script = some out →
        ∀ j n, Ev.annPrompt j n ∈ out.2.1 →
          ∀ f, (loadedFeatures env)[j]? = some f → f.resolvedB = false →
            cacheGet cache (trimName f) = none) := by
  refine ⟨?_, ?_, ?_⟩
  · intro fs i f v hf hres hget
    rw [autoFill_get, hf]
    simp [hres, hget]
  · intro fs i f hf hres
    rw [autoFill_get, hf]
    simp [hres]
  · intro env vocab script out h j n hmem f hf hres
    simp only [process_geojson] at h
    rcases Option.map_eq_some'.1 h with ⟨r, hr, rfl⟩
    have hmem' : Ev.annPrompt j n ∈ r.2.1 := by
      rcases List.mem_cons.1 hmem with he | he
      · cases he
      · exact he
    have hj := interactLoop_prompt_mem vocab cache _ _ _ _ hr j n hmem'
    rcases (mem_unfinIdx _ j).1 hj with ⟨g, hg, hgres⟩
    rw [autoFill_get, hf] at hg
    simp only [Option.map_some', Option.some.injEq] at hg
    cases hget : cacheGet cache (trimName f) with
    | none => rfl
    | some v =>
      rw [hget] at hg
      simp [hres] at hg
      have hv : v ≠ "" := cacheWF_get hwf hget
      rw [← hg] at hgres
      simp [resolvedB_set, hv] at hgres

/-- Witness for C3 at a concrete dataset and cache. -/
theorem autofill_from_cache_checked :
    (autoFill [("Home", "cafe")] [⟨some "A", some "x"⟩, ⟨some "Home", none⟩]).1[1]? =
      some ⟨some "Home", some "cafe"⟩
    ∧ (autoFill [("Home", "cafe")] [⟨some "A", some "x"⟩, ⟨some "Home", none⟩]).1[0]? =
      some ⟨some "A", some "x"⟩ := by
  have h := autofill_from_cache [("Home", "cafe")] (by simp [cacheWF])
  exact ⟨h.1 [⟨some "A", some "x"⟩, ⟨some "Home", none⟩] 1 ⟨some "Home", none⟩ "cafe"
      (by decide) (by decide) (by decide),
    h.2.1 [⟨some "A", some "x"⟩, ⟨some "Home", none⟩] 0 ⟨some "A", some "x"⟩
      (by decide) (by decide)⟩

/-- Counterexample for C2 as stated: a resume file with 1 of its 2
features resolved, re-invoked with a cache that covers the remaining
feature, reports 0 features left to annotate, not M − N = 1: the
reported remainder also subtracts the features auto-filled from the
cache in this invocation. -/
theorem resume_report_counts_cache_fills :
    process_geojson
      ⟨"p_no_amenity.geojson", true, [], [⟨some "A", some "x"⟩, ⟨some "Home", none⟩]⟩
      [] [("Home", "cafe")] [] =
      some ([⟨some "A", some "x"⟩, ⟨some "Home", some "cafe"⟩],
        [Ev.report 2 2 1 0], false)
    ∧ [⟨some "A", some "x"⟩, (⟨some "Home", none⟩ : Feature)].countP
        Feature.resolvedB = 1
    ∧ 2 - 1 ≠ 0 :=
  ⟨by decide, by decide, by decide⟩

/-- Claim C2 (amended): when the resume file exists the engine loads it
instead of the original source; it never prompts for a feature that was
already resolved there; with N of M features resolved at load and C
features auto-filled from the cache in this invocation, the report
states M total, N + C filled and M − N − C remaining (equal to M − N
exactly when C = 0); and when N = M the run is a no-op: the features are
returned unchanged, the trace is the single report event (no writes),
and the engine does not pause. -/
theorem resume_precedence (env : LoadEnv) (vocab : List String) (cache : Cache)
    (script : List String) (out : List Feature × List Ev × Bool)
    (hres : env.resumeExists = true) (hwf : cacheWF cache)
    (h : process_geojson env vocab cache script = some out) :
    loadPath env = workFile env.sourcePath
    ∧ loadedFeatures env = env.resumeFeatures
    ∧ (∀ j n, Ev.annPrompt j n ∈ out.2.1 →
        ∃ f, env.resumeFeatures[j]? = some f ∧ f.resolvedB = false)
    ∧ out.2.1.head? = some (Ev.report env.resumeFeatures.length
        (env.resumeFeatures.countP Feature.resolvedB + (autoFill cache env.resumeFeatures).2)
        (autoFill cache env.resumeFeatures).2
        (env.resumeFeatures.length - env.resumeFeatures.countP Feature.resolvedB
          - (autoFill cache env.resumeFeatures).2))
    ∧ (env.resumeFeatures.countP Feature.resolvedB = env.resumeFeatures.length →
        out.1 = env.resumeFeatures
        ∧ out.2.1 = [Ev.report env.resumeFeatures.length env.resumeFeatures.length 0 0]
        ∧ out.2.2 = false) := by
  have hload : loadedFeatures env = env.resumeFeatures := by
    simp [loadedFeatures, hres]
  refine ⟨by simp [loadPath, hres], hload, ?_, ?_, ?_⟩
  · intro j n hmem
    simp only [process_geojson, hload] at h
    rcases Option.map_eq_some'.1 h with ⟨r, hr, rfl⟩
    have hmem' : Ev.annPrompt j n ∈ r.2.1 := by
      rcases List.mem_cons.1 hmem with he | he
      · cases he
      · exact he
    have hj := interactLoop_prompt_mem vocab cache _ _ _ _ hr j n hmem'
    rcases (mem_unfinIdx _ j).1 hj with ⟨g, hg, hgres⟩
    rw [autoFill_get] at hg
    cases hf : env.resumeFeatures[j]? with
    | none =>
      rw [hf] at hg
      simp at hg
    | some f =>
      rw [hf] at hg
      simp only [Option.map_some', Option.some.injEq] at hg
      refine ⟨f, rfl, ?_⟩
      by_cases hfres : f.resolvedB = true
      · simp [hfres] at hg
        rw [← hg] at hgres
        rw [hfres] at hgres
        cases hgres
      · simpa using hfres
  · simp only [process_geojson, hload] at h
    rcases Option.map_eq_some'.1 h with ⟨r, hr, rfl⟩
    have hlen := autoFill_length cache env.resumeFeatures
    have hcount := autoFill_countP hwf env.resumeFeatures
    have hunfin : (unfinIdx (autoFill cache env.resumeFeatures).1).length =
        env.resumeFeatures.length
          - env.resumeFeatures.countP Feature.resolvedB
          - (autoFill cache env.resumeFeatures).2 := by
      rw [unfinIdx, unfinIdxFrom_length]
      have hadd := countP_not_add (autoFill cache env.resumeFeatures).1 Feature.resolvedB
      omega
    simp only [List.head?_cons, Option.some.injEq]
    rw [hlen, hcount, hunfin]
  · intro hNM
    have hall : ∀ f ∈ env.resumeFeatures, f.resolvedB = true :=
      List.countP_eq_length.1 hNM
    have haf : autoFill cache env.resumeFeatures = (env.resumeFeatures, 0) :=
      autoFill_all_resolved hall
    have hunfin : unfinIdx env.resumeFeatures = [] := by
      have hl : (unfinIdx env.resumeFeatures).length = 0 := by
        rw [unfinIdx, unfinIdxFrom_length]
        have hadd := countP_not_add env.resumeFeatures Feature.resolvedB
        omega
      exact List.length_eq_zero.1 hl
    simp only [process_geojson, hload, haf, hunfin, interactLoop] at h
    simp only [Option.map_some', Option.some.injEq] at h
    subst h
    exact ⟨rfl, by simp [hNM], rfl⟩

/-- Witness for C2's amended statement at a concrete resume file with
1 of 2 features resolved and one cache fill, plus the N = M no-op case. -/
theorem resume_precedence_checked :
    loadedFeatures
      ⟨"p_no_amenity.geojson", true, [], [⟨some "A", some "x"⟩, ⟨some "Home", none⟩]⟩ =
      [⟨some "A", some "x"⟩, ⟨some "Home", none⟩]
    ∧ [Ev.report 2 2 1 0].head? = some (Ev.report 2 2 1 0)
    ∧ process_geojson ⟨"q_no_amenity.geojson", true, [], [⟨some "A", some "x"⟩]⟩
        [] [] [] = some ([⟨some "A", some "x"⟩], [Ev.report 1 1 0 0], false) := by
  have h1 := resume_precedence
    ⟨"p_no_amenity.geojson", true, [], [⟨some "A", some "x"⟩, ⟨some "Home", none⟩]⟩
    [] [("Home", "cafe")] []
    ([⟨some "A", some "x"⟩, ⟨some "Home", some "cafe"⟩], [Ev.report 2 2 1 0], false)
    rfl (by simp [cacheWF]) (by decide)
  have h2 := resume_precedence ⟨"q_no_amenity.geojson", true, [], [⟨some "A", some "x"⟩]⟩
    [] [] [] ([⟨some "A", some "x"⟩], [Ev.report 1 1 0 0], false)
    rfl (by simp [cacheWF]) (by decide)
  refine ⟨h1.2.1, ?_, ?_⟩
  · rfl
  · have h2c := h2.2.2.2.2 (by decide)
    rw [show (⟨"q_no_amenity.geojson", true, [], [⟨some "A", some "x"⟩]⟩ : LoadEnv).resumeFeatures =
      [⟨some "A", some "x"⟩] from rfl] at h2c
    exact by
      have : process_geojson ⟨"q_no_amenity.geojson", true, [], [⟨some "A", some "x"⟩]⟩
          [] [] [] = some ([⟨some "A", some "x"⟩], [Ev.report 1 1 0 0], false) := by decide
      exact this

/-! ## Quitting mid-session: claim C6 -/

theorem interactLoop_paused_trace (vocab : List String) (cache : Cache) :
    ∀ idxs fs script fsF tr,
      interactLoop vocab cache fs idxs script = some (fsF, tr, true) →
      ∃ pre, tr = pre ++ [Ev.saveResume fsF, Ev.saveCache cache] := by
  intro idxs
  induction idxs with
  | nil =>
    intro fs script fsF tr h
    simp [interactLoop] at h
  | cons i rest ih =>
    intro fs script fsF tr h
    cases hask : askAmenity vocab script with
    | none =>
      simp only [interactLoop, hask] at h
      simp at h
    | some a =>
      obtain ⟨ans, script'⟩ := a
      cases ans with
      | quit =>
        simp only [interactLoop, hask, Option.some.injEq] at h
        injection h with ha hb
        injection hb with hb hc
        subst ha
        rw [← hb]
        exact ⟨[Ev.annPrompt i (displayName ((fs[i]?).getD default))], rfl⟩
      | pick v =>
        simp only [interactLoop, hask] at h
        rcases Option.map_eq_some'.1 h with ⟨r, hr, hout⟩
        obtain ⟨r1, rtr, rp⟩ := r
        injection hout with hout1 hout2
        injection hout2 with hout2 hout3
        simp only at hout1 hout2 hout3
        rw [hout1, hout3] at hr
        rcases ih (setAmenity fs i v) script' fsF rtr hr with ⟨pre, hpre⟩
        refine ⟨Ev.annPrompt i (displayName ((fs[i]?).getD default)) ::
          Ev.saveResume (setAmenity fs i v) :: Ev.saveCache cache :: pre, ?_⟩
        rw [← hout2, hpre]
        rfl

theorem interactLoop_paused_prefix (vocab : List String) (cache : Cache)
    (hv : ∀ v ∈ vocab, v ≠ "") :
    ∀ idxs fs script fsF tr, idxs.Nodup → (∀ j ∈ idxs, j < fs.length) →
      interactLoop vocab cache fs idxs script = some (fsF, tr, true) →
      ∃ k, k ≤ idxs.length
        ∧ (∀ j ∈ idxs.take k, ∃ f', fsF[j]? = some f' ∧ f'.resolvedB = true)
        ∧ (∀ j ∈ idxs.drop k, fsF[j]? = fs[j]?) := by
  intro idxs
  induction idxs with
  | nil =>
    intro fs script fsF tr _ _ h
    simp [interactLoop] at h
  | cons i rest ih =>
    intro fs script fsF tr hnd hidx h
    have hndr : rest.Nodup := (List.nodup_cons.1 hnd).2
    have hir : i ∉ rest := (List.nodup_cons.1 hnd).1
    cases hask : askAmenity vocab script with
    | none =>
      simp only [interactLoop, hask] at h
      simp at h
    | some a =>
      obtain ⟨ans, script'⟩ := a
      cases ans with
      | quit =>
        simp only [interactLoop, hask, Option.some.injEq] at h
        injection h with ha hb
        subst ha
        refine ⟨0, by omega, by simp, ?_⟩
        intro j _
        rfl
      | pick v =>
        simp only [interactLoop, hask] at h
        rcases Option.map_eq_some'.1 h with ⟨r, hr, hout⟩
        obtain ⟨r1, rtr, rp⟩ := r
        injection hout with hout1 hout2
        injection hout2 with hout2 hout3
        simp only at hout1 hout2 hout3
        rw [hout1, hout3] at hr
        have hlen : (setAmenity fs i v).length = fs.length := setAmenity_length fs i v
        have hidx' : ∀ j ∈ rest, j < (setAmenity fs i v).length := by
          intro j hj
          rw [hlen]
          exact hidx j (List.mem_cons_of_mem i hj)
        rcases ih (setAmenity fs i v) script' fsF rtr hndr hidx' hr with
          ⟨k, hk, htake, hdrop⟩
        have hvne : v ≠ "" := by
          rcases askAmenity_pick_spec vocab script v script' hask with hmem | ⟨-, -, hne⟩
          · exact hv v hmem
          · exact hne
        refine ⟨k + 1, by simpa using hk, ?_, ?_⟩
        · intro j hj
          rw [List.take_succ_cons] at hj
          rcases List.mem_cons.1 hj with rfl | hj'
          · have hji : j < fs.length := hidx j (List.mem_cons_self j rest)
            have hfj : fs[j]? = some fs[j] := List.getElem?_eq_getElem hji
            have huntouched := interactLoop_untouched vocab cache rest
              (setAmenity fs j v) script' (fsF, rtr, true) hr j hir
            rw [huntouched, setAmenity_get_eq, hfj]
            exact ⟨_, rfl, by simp [resolvedB_set, hvne]⟩
          · exact htake j hj'
        · intro j hj
          rw [List.drop_succ_cons] at hj
          have hjr : j ∈ rest := List.mem_of_mem_drop hj
          have hji : j ≠ i := fun hc => hir (hc ▸ hjr)
          rw [hdrop j hj]
          exact setAmenity_get_ne fs i j v hji

/-- Counterexample for C6 as stated: quitting after interactively
resolving the feature "Home" leaves the saved resume file with that
feature resolved, but the saved cache is still empty — the name "Home"
answered during the interactive loop is not in the cache, because the
interactive loop never inserts into it. -/
theorem quit_cache_missing_interactive_name :
    process_geojson
      ⟨"p_no_amenity.geojson", false, [⟨some "Home", none⟩, ⟨some "Work", none⟩], []⟩
      [] [] ["cafe", "q"] =
      some ([⟨some "Home", some "cafe"⟩, ⟨some "Work", none⟩],
        [Ev.report 2 0 0 2,
         Ev.annPrompt 0 "Home",
         Ev.saveResume [⟨some "Home", some "cafe"⟩, ⟨some "Work", none⟩],
         Ev.saveCache [],
         Ev.annPrompt 1 "Work",
         Ev.saveResume [⟨some "Home", some "cafe"⟩, ⟨some "Work", none⟩],
         Ev.saveCache []], true)
    ∧ cacheMem [] "Home" = false
    ∧ (⟨some "Home", some "cafe"⟩ : Feature).resolvedB = true :=
  ⟨by decide, rfl, rfl⟩

/-- Claim C6 (amended): quitting mid-INTERACTIVE leaves a resume file
containing exactly the dataset with the first k pending features newly
resolved — every other feature unchanged from its post-auto-fill state —
and persists the AnnotationCache exactly as it was when the interactive
loop began: chain answers are in it, but interactive answers are never
inserted into the cache. -/
theorem quit_resume_exact (env : LoadEnv) (vocab : List String) (cache : Cache)
    (script : List String) (out : List Feature × List Ev × Bool)
    (hv : ∀ v ∈ vocab, v ≠ "")
    (h : process_geojson env vocab cache script = some out)
    (hp : out.2.2 = true) :
    (∃ pre, out.2.1 = pre ++ [Ev.saveResume out.1, Ev.saveCache cache])
    ∧ (∃ k, k ≤ (unfinIdx (autoFill cache (loadedFeatures env)).1).length
        ∧ (∀ j ∈ (unfinIdx (autoFill cache (loadedFeatures env)).1).take k,
            ∃ f', out.1[j]? = some f' ∧ f'.resolvedB = true)
        ∧ (∀ j ∈ (unfinIdx (autoFill cache (loadedFeatures env)).1).drop k,
            out.1[j]? = (autoFill cache (loadedFeatures env)).1[j]?))
    ∧ (∀ j, j ∉ unfinIdx (autoFill cache (loadedFeatures env)).1 →
        out.1[j]? = (autoFill cache (loadedFeatures env)).1[j]?) := by
  obtain ⟨o1, otr, op⟩ := out
  simp only [process_geojson] at h
  rcases Option.map_eq_some'.1 h with ⟨r, hr, hout⟩
  obtain ⟨r1, rtr, rp⟩ := r
  injection hout with hout1 hout2
  injection hout2 with hout2 hout3
  simp only at hout1 hout2 hout3
  have hp' : rp = true := by
    rw [hout3]
    exact hp
  rw [hout1, hp'] at hr
  have hnd : (unfinIdx (autoFill cache (loadedFeatures env)).1).Nodup :=
    unfinIdxFrom_nodup _ 0
  have hidx : ∀ j ∈ unfinIdx (autoFill cache (loadedFeatures env)).1,
      j < (autoFill cache (loadedFeatures env)).1.length := by
    intro j hj
    rcases (mem_unfinIdx _ j).1 hj with ⟨f, hf, -⟩
    rcases List.getElem?_eq_some.1 hf with ⟨hlt, -⟩
    exact hlt
  refine ⟨?_, ?_, ?_⟩
  · rcases interactLoop_paused_trace vocab cache _ _ _ _ _ hr with ⟨pre, hpre⟩
    refine ⟨Ev.report (autoFill cache (loadedFeatures env)).1.length
      ((autoFill cache (loadedFeatures env)).1.countP Feature.resolvedB)
      (autoFill cache (loadedFeatures env)).2
      (unfinIdx (autoFill cache (loadedFeatures env)).1).length :: pre, ?_⟩
    show otr = _
    rw [← hout2, hpre]
    rfl
  · rcases interactLoop_paused_prefix vocab cache hv _ _ _ _ _ hnd hidx hr with
      ⟨k, hk, htake, hdrop⟩
    exact ⟨k, hk, htake, hdrop⟩
  · intro j hj
    exact interactLoop_untouched vocab cache _ _ _ _ hr j hj

/-- Witness for C6's amended statement at the concrete two-feature quit
run. -/
theorem quit_resume_exact_checked :
    (∃ pre, [Ev.report 2 0 0 2,
        Ev.annPrompt 0 "Home",
        Ev.saveResume [⟨some "Home", some "cafe"⟩, ⟨some "Work", none⟩],
        Ev.saveCache [],
        Ev.annPrompt 1 "Work",
        Ev.saveResume [⟨some "Home", some "cafe"⟩, ⟨some "Work", none⟩],
        Ev.saveCache []] =
        pre ++ [Ev.saveResume [⟨some "Home", some "cafe"⟩, ⟨some "Work", none⟩],
                Ev.saveCache []]) := by
  have h := quit_resume_exact
    ⟨"p_no_amenity.geojson", false, [⟨some "Home", none⟩, ⟨some "Work", none⟩], []⟩
    [] [] ["cafe", "q"]
    ([⟨some "Home", some "cafe"⟩, ⟨some "Work", none⟩],
     [Ev.report 2 0 0 2,
      Ev.annPrompt 0 "Home",
      Ev.saveResume [⟨some "Home", some "cafe"⟩, ⟨some "Work", none⟩],
      Ev.saveCache [],
      Ev.annPrompt 1 "Work",
      Ev.saveResume [⟨some "Home", some "cafe"⟩, ⟨some "Work", none⟩],
      Ev.saveCache []], true)
    (by simp) (by decide) rfl
  exact h.1

/-! ## Monotonic resolution: claim C8 -/

theorem askRetag_pick_ne {script : List String} {v : String} {rest : List String}
    (h : askRetag script = some (.pick v, rest)) : v ≠ "" := by
  induction script generalizing rest with
  | nil => simp [askRetag] at h
  | cons s ss ih =>
    by_cases hq : (strLower (strTrim s) == "q") = true
    · rw [askRetag] at h
      rw [if_pos hq] at h
      simp at h
    · by_cases ht : (strTrim s == "") = true
      · rw [askRetag, if_neg hq, if_pos ht] at h
        exact ih h
      · rw [askRetag, if_neg hq, if_neg ht] at h
        injection h with h'
        injection h' with h1 h2
        injection h1 with h1
        rw [← h1]
        simpa using ht

theorem setAmenity_resolved_preserve (fs : List Feature) (i : Nat) {v : String}
    (hv : v ≠ "") :
    ∀ (j : Nat) (f : Feature), fs[j]? = some f → f.resolvedB = true →
      ∃ f', (setAmenity fs i v)[j]? = some f' ∧ f'.resolvedB = true := by
  intro j f hf hres
  by_cases hji : j = i
  · subst hji
    rw [setAmenity_get_eq, hf]
    exact ⟨_, rfl, by simp [resolvedB_set, hv]⟩
  · rw [setAmenity_get_ne fs i j v hji, hf]
    exact ⟨f, rfl, hres⟩

theorem interactLoop_monotone (vocab : List String) (cache : Cache)
    (hv : ∀ v ∈ vocab, v ≠ "") :
    ∀ idxs fs script out, interactLoop vocab cache fs idxs script = some out →
      ∀ (j : Nat) (f : Feature), fs[j]? = some f → f.resolvedB = true →
        ∃ f', out.1[j]? = some f' ∧ f'.resolvedB = true := by
  intro idxs
  induction idxs with
  | nil =>
    intro fs script out h j f hf hres
    simp [interactLoop] at h
    subst h
    exact ⟨f, hf, hres⟩
  | cons i rest ih =>
    intro fs script out h j f hf hres
    cases hask : askAmenity vocab script with
    | none =>
      simp only [interactLoop, hask] at h
      simp at h
    | some a =>
      obtain ⟨ans, script'⟩ := a
      cases ans with
      | quit =>
        simp only [interactLoop, hask, Option.some.injEq] at h
        subst h
        exact ⟨f, hf, hres⟩
      | pick v =>
        simp only [interactLoop, hask] at h
        rcases Option.map_eq_some'.1 h with ⟨r, hr, rfl⟩
        have hvne : v ≠ "" := by
          rcases askAmenity_pick_spec vocab script v script' hask with hmem | ⟨-, -, hne⟩
          · exact hv v hmem
          · exact hne
        rcases setAmenity_resolved_preserve fs i hvne j f hf hres with
          ⟨f', hf', hres'⟩
        exact ih (setAmenity fs i v) script' r hr j f' hf' hres'

theorem retagLoop_monotone :
    ∀ idxs fs cache script out, cacheWF cache →
      retagLoop fs idxs cache script = some out →
      ∀ (j : Nat) (f : Feature), fs[j]? = some f → f.resolvedB = true →
        ∃ f', out.1[j]? = some f' ∧ f'.resolvedB = true := by
  intro idxs
  induction idxs with
  | nil =>
    intro fs cache script out _ h j f hf hres
    simp [retagLoop] at h
    subst h
    exact ⟨f, hf, hres⟩
  | cons i rest ih =>
    intro fs cache script out hwf h j f hf hres
    cases hhit : cacheGet cache (displayName ((fs[i]?).getD default)) with
    | some v =>
      simp only [retagLoop, hhit] at h
      rcases Option.map_eq_some'.1 h with ⟨r, hr, rfl⟩
      have hvne : v ≠ "" := cacheWF_get hwf hhit
      rcases setAmenity_resolved_preserve fs i hvne j f hf hres with
        ⟨f', hf', hres'⟩
      exact ih (setAmenity fs i v) cache script r hwf hr j f' hf' hres'
    | none =>
      cases hask : askRetag script with
      | none =>
        simp only [retagLoop, hhit, hask] at h
        simp at h
      | some a =>
        obtain ⟨ans, script'⟩ := a
        cases ans with
        | quit =>
          simp only [retagLoop, hhit, hask, Option.some.injEq] at h
          subst h
          exact ⟨f, hf, hres⟩
        | pick v =>
          simp only [retagLoop, hhit, hask] at h
          rcases Option.map_eq_some'.1 h with ⟨r, hr, rfl⟩
          have hvne : v ≠ "" := askRetag_pick_ne hask
          rcases setAmenity_resolved_preserve fs i hvne j f hf hres with
            ⟨f', hf', hres'⟩
          exact ih (setAmenity fs i v)
            (cachePut cache (displayName ((fs[i]?).getD default)) v) script' r
            (cacheWF_put hwf hvne) hr j f' hf' hres'

/-- Claim C8: resolution is monotonic — auto-fill leaves resolved
features untouched, and neither the interactive annotation loop (with a
well-formed vocabulary) nor the retagger (with a well-formed retag cache)
ever turns a resolved feature back into an unresolved one. -/
theorem resolution_monotonic :
    (∀ cache fs (j : Nat) f, fs[j]? = some f → f.resolvedB = true →
        (autoFill cache fs).1[j]? = some f)
    ∧ (∀ env vocab cache script out, (∀ v ∈ vocab, v ≠ "") →
        process_geojson env vocab cache script = some out →
        ∀ (j : Nat) (f : Feature), (loadedFeatures env)[j]? = some f → f.resolvedB = true →
          ∃ f', out.1[j]? = some f' ∧ f'.resolvedB = true)
    ∧ (∀ fs cache script out, cacheWF cache →
        process_retag fs cache script = some out →
        ∀ (j : Nat) (f : Feature), fs[j]? = some f → f.resolvedB = true →
          ∃ f', out.1[j]? = some f' ∧ f'.resolvedB = true) := by
  refine ⟨?_, ?_, ?_⟩
  · intro cache fs j f hf hres
    rw [autoFill_get, hf]
    simp [hres]
  · intro env vocab cache script out hv h j f hf hres
    simp only [process_geojson] at h
    rcases Option.map_eq_some'.1 h with ⟨r, hr, rfl⟩
    have hf1 : (autoFill cache (loadedFeatures env)).1[j]? = some f := by
      rw [autoFill_get, hf]
      simp [hres]
    exact interactLoop_monotone vocab cache hv _ _ _ _ hr j f hf1 hres
  · intro fs cache script out hwf h j f hf hres
    simp only [process_retag] at h
    by_cases hemp : (targetIdxFrom 0 fs).isEmpty
    · rw [if_pos hemp] at h
      simp at h
      subst h
      exact ⟨f, hf, hres⟩
    · rw [if_neg hemp] at h
      exact retagLoop_monotone (targetIdxFrom 0 fs) fs cache script out hwf h j f hf hres

/-- Witness for C8 at concrete runs of all three operations. -/
theorem resolution_monotonic_checked :
    (autoFill [("Home", "cafe")] [⟨some "A", some "x"⟩, ⟨some "Home", none⟩]).1[0]? =
      some ⟨some "A", some "x"⟩
    ∧ (∃ f', ([⟨some "Home", some "tea"⟩, ⟨some "Work", some "cafe"⟩] : List Feature)[0]? =
        some f' ∧ f'.resolvedB = true)
    ∧ (∃ f', ([⟨some "S", some "books"⟩] : List Feature)[0]? = some f'
        ∧ f'.resolvedB = true) := by
  refine ⟨?_, ?_, ?_⟩
  · exact (resolution_monotonic).1 [("Home", "cafe")]
      [⟨some "A", some "x"⟩, ⟨some "Home", none⟩] 0 ⟨some "A", some "x"⟩
      (by decide) (by decide)
  · exact (resolution_monotonic).2.1
      ⟨"p_no_amenity.geojson", false, [⟨some "Home", some "tea"⟩, ⟨some "Work", none⟩], []⟩
      [] [] ["cafe", "q"]
      ([⟨some "Home", some "tea"⟩, ⟨some "Work", some "cafe"⟩],
       [Ev.report 2 1 0 1,
        Ev.annPrompt 1 "Work",
        Ev.saveResume [⟨some "Home", some "tea"⟩, ⟨some "Work", some "cafe"⟩],
        Ev.saveCache []], false)
      (by simp) (by decide) 0 ⟨some "Home", some "tea"⟩ (by decide) (by decide)
  · exact (resolution_monotonic).2.2 [⟨some "S", some "retail_store"⟩] [] ["books"]
      ([⟨some "S", some "books"⟩], [("S", "books")],
       [Ev.retagPrompt 0 "S", Ev.saveResume [⟨some "S", some "books"⟩],
        Ev.saveCache [("S", "books")]])
      (by simp [cacheWF]) (by decide) 0 ⟨some "S", some "retail_store"⟩
      (by decide) (by decide)

end Biznest
